import Mathlib

/-! vld-perf: run lifecycle and comparison engine

A shallow embedding of `cmd/vld-perf/main.go`.

Modelling conventions
* Go `string` values are Lean `String`s (sequences of Unicode scalar values);
  text that is scanned rune by rune is handled as `List Char`.
* A finite Go `float64` value is the rational number it denotes (`ℚ`); a value
  read from text (`Sscanf`, JSON) is the number the text denotes. Where the
  program calculates with such values (the comparator), every operation rounds
  to binary64 as IEEE 754 prescribes (to nearest, ties to even) and its result
  is a `Float64`: a finite value, an infinity or NaN.
* Go `int` is `Int`.
* The standard library pieces the program relies on (`regexp`, `fmt.Sscanf`,
  `encoding/json`, the file system) are modelled by the definitions of the
  first sections, each one documented with the library behaviour it follows.
-/

namespace VldPerf

/-! ## `regexp`: a backtracking matcher with leftmost-first semantics -/

/-- A place in the scanned text: the rune before it (if any) and the runes from it on. -/
structure Cursor where
  prev : Option Char
  rest : List Char
deriving DecidableEq, Repr

/-- The regular expression constructs used by `benchLine`. Repetition (`star`
for `*`, `plus` for `+`) is over a character class only, and is greedy. -/
inductive Re where
  | bol : Re
  | eol : Re
  | lit : List Char → Re
  | cls : (Char → Bool) → Re
  | star : (Char → Bool) → Re
  | plus : (Char → Bool) → Re
  | seq : Re → Re → Re
  | opt : Re → Re
  | group : Nat → Re → Re

/-- Perl class `\s` of Go's regexp syntax: `[\t\n\f\r ]`. -/
def isSpaceRe (c : Char) : Bool :=
  c == '\t' || c == '\n' || c == Char.ofNat 12 || c == '\r' || c == ' '

/-- Perl class `\S`. -/
def isNotSpaceRe (c : Char) : Bool := !isSpaceRe c

/-- Perl class `\d`: `[0-9]`. -/
def isDigitRe (c : Char) : Bool := decide ('0' ≤ c) && decide (c ≤ '9')

/-- The class `[0-9\.e\+]`. -/
def isFigureRe (c : Char) : Bool := isDigitRe c || c == '.' || c == 'e' || c == '+'

/-- Remove a literal from the front of the text; the result is the last rune
read and the remaining text. -/
def stripLit : List Char → Option Char → List Char → Option Cursor
  | [], prev, rest => some ⟨prev, rest⟩
  | _ :: _, _, [] => none
  | c :: cs, _, d :: ds => if c = d then stripLit cs (some d) ds else none

/-- Greedy repetition of a character class: first try to take one more rune,
and fall back to stopping here when the rest of the expression fails. -/
def starRun {R : Type} (p : Char → Bool) : Option Char → List Char → (Cursor → Option R) → Option R
  | prev, [], k => k ⟨prev, []⟩
  | prev, c :: cs, k =>
    if p c then
      match starRun p (some c) cs k with
      | some r => some r
      | none => k ⟨prev, c :: cs⟩
    else k ⟨prev, c :: cs⟩

/-- The text consumed between two places of the same scan. -/
def consumed (s s' : Cursor) : List Char :=
  s.rest.take (s.rest.length - s'.rest.length)

/-- Backtracking match of an expression at a place, in continuation-passing
style: the continuation is the rest of the expression, alternatives are tried
in priority order (greedy first), and the first success is returned. With
`(?m)`, `^` holds at the start of the text and after a newline, `$` at the end
of the text and before a newline. -/
def Re.run {R : Type} : Re → Cursor → List (List Char) →
    (Cursor → List (List Char) → Option R) → Option R
  | Re.bol, s, caps, k =>
    if s.prev = none ∨ s.prev = some '\n' then k s caps else none
  | Re.eol, s, caps, k =>
    if s.rest.head? = none ∨ s.rest.head? = some '\n' then k s caps else none
  | Re.lit l, s, caps, k =>
    match stripLit l s.prev s.rest with
    | some s' => k s' caps
    | none => none
  | Re.cls p, s, caps, k =>
    match s.rest with
    | [] => none
    | c :: cs => if p c then k ⟨some c, cs⟩ caps else none
  | Re.star p, s, caps, k => starRun p s.prev s.rest (fun s' => k s' caps)
  | Re.plus p, s, caps, k =>
    match s.rest with
    | [] => none
    | c :: cs => if p c then starRun p (some c) cs (fun s' => k s' caps) else none
  | Re.seq a b, s, caps, k => a.run s caps (fun s' caps' => b.run s' caps' k)
  | Re.opt a, s, caps, k =>
    match a.run s caps k with
    | some r => some r
    | none => k s caps
  | Re.group i a, s, caps, k =>
    a.run s caps (fun s' caps' => k s' (caps'.set i (consumed s s')))

/-- A match: where it starts, where it stops, and the submatches (index 0 is the
whole match, an unset group is the empty string). -/
structure Match where
  start : Cursor
  stop : Cursor
  groups : List (List Char)
deriving DecidableEq, Repr

/-- Match anchored at one place. `ncap` is the number of capture groups. -/
def execAt (re : Re) (ncap : Nat) (s : Cursor) : Option Match :=
  re.run s (List.replicate (ncap + 1) [])
    (fun s' caps => some ⟨s, s', caps.set 0 (consumed s s')⟩)

/-- Unanchored search from a place: the leftmost place at which the expression
matches, and there the first match in priority order. -/
def doExecute (re : Re) (ncap : Nat) : Option Char → List Char → Option Match
  | prev, [] => execAt re ncap ⟨prev, []⟩
  | prev, c :: cs =>
    match execAt re ncap ⟨prev, c :: cs⟩ with
    | some m => some m
    | none => doExecute re ncap (some c) cs

/-- The loop of `regexp.allMatches`: successive non-overlapping matches. `n` is
the maximal number of matches still to deliver, `pos` the place the next search
starts from, `prevMatchEnd` the end of the previous match (as the length of
the text after it). An empty match right after the previous match is skipped;
after an empty match the search moves one rune forward. -/
def allMatches (re : Re) (ncap : Nat) : Nat → Cursor → Option Nat → List (List (List Char))
  | 0, _, _ => []
  | n + 1, pos, prevMatchEnd =>
    match doExecute re ncap pos.prev pos.rest with
    | none => []
    | some m =>
      if m.stop.rest.length = pos.rest.length then
        let tail :=
          match pos.rest with
          | [] => []
          | c :: cs => allMatches re ncap n ⟨some c, cs⟩ (some m.stop.rest.length)
        if some m.start.rest.length = prevMatchEnd then tail else m.groups :: tail
      else
        m.groups :: allMatches re ncap n m.stop (some m.stop.rest.length)

/-- The call `re.FindAllStringSubmatch(s, -1)`: a negative count stands for
`len(s) + 1` matches at most. -/
def FindAllStringSubmatch (re : Re) (ncap : Nat) (s : List Char) : List (List (List Char)) :=
  allMatches re ncap (s.length + 1) ⟨none, s⟩ none

/-! ## `fmt.Sscanf(str, "%f", &x)` -/

/-- Value of a run of decimal digits. -/
def natOfDigits (ds : List Char) : Nat :=
  ds.foldl (fun n c => 10 * n + (c.toNat - 48)) 0

/-- Take an optional sign off the front; the flag tells whether it was `-`. -/
def takeSign : List Char → Bool × List Char
  | '+' :: r => (false, r)
  | '-' :: r => (true, r)
  | s => (false, s)

/-- The token read by `(*ss).floatToken` on its decimal path: optional sign,
digits, optional period and digits, optional exponent letter with optional sign
and digits. (The `NaN`, `Inf`, hexadecimal, underscore and binary-exponent
forms start with or contain runes that a group of `benchLine` cannot hold;
they are not modelled.) -/
def floatToken (s : List Char) : List Char :=
  let sgn := match s with
    | '+' :: _ => ['+']
    | '-' :: _ => ['-']
    | _ => []
  let s1 := s.drop sgn.length
  let ip := s1.takeWhile isDigitRe
  let s2 := s1.dropWhile isDigitRe
  let fp := match s2 with
    | '.' :: r => '.' :: r.takeWhile isDigitRe
    | _ => []
  let s3 := s2.drop fp.length
  let ex := match s3 with
    | [] => []
    | c :: r =>
      if c = 'e' ∨ c = 'E' then
        let sg := match r with
          | '+' :: _ => ['+']
          | '-' :: _ => ['-']
          | _ => []
        c :: (sg ++ (r.drop sg.length).takeWhile isDigitRe)
      else []
  sgn ++ ip ++ fp ++ ex

/-- Least magnitude that `strconv.ParseFloat(_, 64)` rejects with a range
error (it would round to infinity): `2^1024 - 2^970`. -/
def float64Overflow : ℚ := 2 ^ 1024 - 2 ^ 970

/-- The decimal grammar of `strconv.ParseFloat`: optional sign, digits with an
optional period and at least one digit in all, an optional exponent with at
least one digit, and nothing after it. The value is exact; a magnitude that
float64 cannot hold is an error. -/
def parseFloat (s : List Char) : Option ℚ :=
  let (neg, s1) := takeSign s
  let ip := s1.takeWhile isDigitRe
  let s2 := s1.dropWhile isDigitRe
  let (fp, s3) := match s2 with
    | '.' :: r => (r.takeWhile isDigitRe, r.dropWhile isDigitRe)
    | _ => ([], s2)
  if ip ++ fp = [] then none
  else
    let mant : ℚ := (natOfDigits (ip ++ fp) : ℚ) / (10 : ℚ) ^ fp.length
    let expo : Option Int := match s3 with
      | [] => some 0
      | c :: r =>
        if c = 'e' ∨ c = 'E' then
          let (eneg, r1) := takeSign r
          let ed := r1.takeWhile isDigitRe
          if ed = [] ∨ r1.dropWhile isDigitRe ≠ [] then none
          else some (if eneg then -(natOfDigits ed : Int) else (natOfDigits ed : Int))
        else none
    match expo with
    | none => none
    | some e =>
      let v : ℚ := mant * (10 : ℚ) ^ e
      if float64Overflow ≤ v then none
      else some (if neg then -v else v)

/-- The effect of `fmt.Sscanf(str, "%f", &x)` on a variable `x` that holds 0:
the token is read and converted; on any error (empty input, malformed number,
range error) the variable keeps its value 0. Input left after the token is
ignored. -/
def sscanfFloat (str : List Char) : ℚ :=
  match parseFloat (floatToken str) with
  | some v => v
  | none => 0

/-! ## Metric extractor -/

/-- Benchmark stats: ns/op, B/op, allocs/op. -/
structure benchStats where
  NsPerOp : ℚ := 0
  BytesPerOp : ℚ := 0
  AllocsPerOp : ℚ := 0
deriving DecidableEq, Repr

/-- The name every benchmark summary line must start with. -/
def benchName : List Char := "BenchmarkVideoLightningDetectorFromEnvArgs".toList

/-- A figure followed by a unit, as an optional or mandatory tail of the line:
`\s+([0-9\.e\+]+)\s+<unit>`. -/
def figureThenUnit (i : Nat) (unit : List Char) : Re :=
  Re.seq (Re.plus isSpaceRe)
    (Re.seq (Re.group i (Re.plus isFigureRe))
      (Re.seq (Re.plus isSpaceRe) (Re.lit unit)))

/-- The expression
`(?m)^BenchmarkVideoLightningDetectorFromEnvArgs\S*\s+\d+\s+([0-9\.e\+]+)\s+ns/op(?:\s+([0-9\.e\+]+)\s+B/op)?(?:\s+([0-9\.e\+]+)\s+allocs/op)?$`. -/
def benchLine : Re :=
  Re.seq Re.bol
    (Re.seq (Re.lit benchName)
      (Re.seq (Re.star isNotSpaceRe)
        (Re.seq (Re.plus isSpaceRe)
          (Re.seq (Re.plus isDigitRe)
            (Re.seq (figureThenUnit 1 "ns/op".toList)
              (Re.seq (Re.opt (figureThenUnit 2 "B/op".toList))
                (Re.seq (Re.opt (figureThenUnit 3 "allocs/op".toList))
                  Re.eol)))))))

/-- Number of capture groups of `benchLine`. -/
def benchLineGroups : Nat := 3

/-- Source function `parseBench`: pick the last match and scan its three groups. -/
def parseBench (output : String) : benchStats :=
  let ms := FindAllStringSubmatch benchLine benchLineGroups output.toList
  if ms.length = 0 then {}
  else
    let m := ms.getLastD []
    let ns := sscanfFloat (m.getD 1 [])
    let b := if m.length > 2 then sscanfFloat (m.getD 2 []) else 0
    let a := if m.length > 3 then sscanfFloat (m.getD 3 []) else 0
    { NsPerOp := ns, BytesPerOp := b, AllocsPerOp := a }

/-! ## Data model -/

/-- Timing report written by the detector: total milliseconds and the stage
map. A Go map is modelled by its entries, with distinct keys in a well-formed
value; `none` is the nil map. -/
structure timingsReport where
  TotalMs : ℚ := 0
  Stages : Option (List (String × ℚ)) := none
deriving DecidableEq, Repr

/-- Descriptive metadata of a run. -/
structure runMetadata where
  RunID : String := ""
  Suite : String := ""
  Label : String := ""
  CommitSHA : String := ""
  Branch : String := ""
  GoVersion : String := ""
  Ffmpeg : String := ""
  OS : String := ""
  Arch : String := ""
  CLIArgs : String := ""
  TimestampISO : String := ""
deriving DecidableEq, Repr

/-- The unit of persistence. -/
structure runResult where
  Metadata : runMetadata := {}
  Timings : timingsReport := {}
  Bench : benchStats := {}
  Detections : Int := 0
  Notes : String := ""
deriving DecidableEq, Repr

/-- Options of one run (`threshold` is a float64). -/
structure runOpts where
  echo : Bool
  verbose : Bool
  stream : Bool
  threshold : ℚ

/-! ## `encoding/json` at the level of JSON values -/

/-- A JSON value. Numbers are the rationals their literals denote. -/
inductive Json where
  | null : Json
  | bool : Bool → Json
  | num : ℚ → Json
  | str : String → Json
  | arr : List Json → Json
  | obj : List (String × Json) → Json

/-- Order of map keys in the encoder's output: byte-wise comparison of the
keys, which on well-formed UTF-8 is the lexicographic order of the runes. -/
def lexLE : List Char → List Char → Bool
  | [], _ => true
  | _ :: _, [] => false
  | a :: as, b :: bs => if a < b then true else if b < a then false else lexLE as bs

/-- Marshal of a `map[string]float64`: `null` for the nil map, else an object
with the keys in sorted order. -/
def encodeStages : Option (List (String × ℚ)) → Json
  | none => Json.null
  | some kvs =>
    Json.obj ((kvs.insertionSort (fun a b => lexLE a.1.toList b.1.toList = true)).map
      (fun kv => (kv.1, Json.num kv.2)))

/-- Marshal of a `timingsReport`. -/
def encodeTimings (t : timingsReport) : Json :=
  Json.obj [("total_ms", Json.num t.TotalMs), ("stages_ms", encodeStages t.Stages)]

/-- Marshal of a `benchStats`. -/
def encodeBench (b : benchStats) : Json :=
  Json.obj [("ns_per_op", Json.num b.NsPerOp), ("bytes_per_op", Json.num b.BytesPerOp),
    ("allocs_per_op", Json.num b.AllocsPerOp)]

/-- A field tagged `omitempty` is left out when it is the empty string. -/
def omitEmpty (key : String) (v : String) : List (String × Json) :=
  if v = "" then [] else [(key, Json.str v)]

/-- Marshal of a `runMetadata`, fields in declaration order. -/
def encodeMetadata (m : runMetadata) : Json :=
  Json.obj ([("run_id", Json.str m.RunID), ("suite", Json.str m.Suite),
    ("label", Json.str m.Label), ("commit_sha", Json.str m.CommitSHA),
    ("branch", Json.str m.Branch), ("go_version", Json.str m.GoVersion)] ++
    omitEmpty "ffmpeg_version" m.Ffmpeg ++
    [("os", Json.str m.OS), ("arch", Json.str m.Arch), ("cli_args", Json.str m.CLIArgs),
      ("timestamp_iso", Json.str m.TimestampISO)])

/-- Marshal of a `runResult`. -/
def encodeRunResult (r : runResult) : Json :=
  Json.obj ([("metadata", encodeMetadata r.Metadata), ("timings_ms", encodeTimings r.Timings),
    ("bench", encodeBench r.Bench), ("detections", Json.num (r.Detections : ℚ))] ++
    omitEmpty "notes" r.Notes)

/-- Case folding of one rune of a key as far as it can matter against the
ASCII field names: ASCII letters to upper case, and the two non-ASCII runes
whose fold orbit holds an ASCII letter (`ſ` with `S`, the Kelvin sign with `K`). -/
def foldRune (c : Char) : Char :=
  if 'a' ≤ c ∧ c ≤ 'z' then Char.ofNat (c.toNat - 32)
  else if c = Char.ofNat 0x17F then 'S'
  else if c = Char.ofNat 0x212A then 'K'
  else c

/-- Folded form of a key. -/
def foldName (s : String) : List Char := s.toList.map foldRune

/-- Field of a struct for a JSON key: the field whose name is the key, else the
first field whose name equals it under case folding. -/
def findField {β : Type} (fields : List (String × β)) (key : String) : Option β :=
  match fields.find? (fun f => f.1 == key) with
  | some f => some f.2
  | none =>
    match fields.find? (fun f => foldName f.1 == foldName key) with
    | some f => some f.2
    | none => none

/-- Unmarshal into a string: a JSON string is stored, `null` changes nothing,
anything else is a type error. -/
def decodeString (j : Json) (cur : String) : Except String String :=
  match j with
  | Json.str s => Except.ok s
  | Json.null => Except.ok cur
  | _ => Except.error "json: cannot unmarshal into Go value of type string"

/-- Unmarshal into a float64. -/
def decodeFloat (j : Json) (cur : ℚ) : Except String ℚ :=
  match j with
  | Json.num q => Except.ok q
  | Json.null => Except.ok cur
  | _ => Except.error "json: cannot unmarshal into Go value of type float64"

/-- Unmarshal into an int: the number must be integral. -/
def decodeInt (j : Json) (cur : Int) : Except String Int :=
  match j with
  | Json.num q =>
    if q.den = 1 then Except.ok q.num
    else Except.error "json: cannot unmarshal number into Go value of type int"
  | Json.null => Except.ok cur
  | _ => Except.error "json: cannot unmarshal into Go value of type int"

/-- Assignment `m[k] = v` on the entries of a map. -/
def mapStore : List (String × ℚ) → String → ℚ → List (String × ℚ)
  | [], k, v => [(k, v)]
  | (k', v') :: rest, k, v => if k' = k then (k, v) :: rest else (k', v') :: mapStore rest k v

/-- Lookup `m[k]` on the entries of a map; the zero value when the key is missing. -/
def mapIndex : List (String × ℚ) → String → ℚ
  | [], _ => 0
  | (k', v') :: rest, k => if k' = k then v' else mapIndex rest k

/-- Lookup on a possibly nil map. -/
def stageValue (m : Option (List (String × ℚ))) (k : String) : ℚ :=
  match m with
  | none => 0
  | some kvs => mapIndex kvs k

/-- Unmarshal of the members of an object into a map: each member is decoded
into a fresh zero element (a number is stored, `null` leaves the zero) and
then assigned to its key. -/
def decodeStageEntries : List (String × Json) → List (String × ℚ) →
    Except String (List (String × ℚ))
  | [], acc => Except.ok acc
  | (k, v) :: rest, acc =>
    match decodeFloat v 0 with
    | Except.ok q => decodeStageEntries rest (mapStore acc k q)
    | Except.error e => Except.error e

/-- Unmarshal into a `map[string]float64`: `null` makes the map nil, an object
fills the map (allocated when nil). -/
def decodeStages (j : Json) (cur : Option (List (String × ℚ))) :
    Except String (Option (List (String × ℚ))) :=
  match j with
  | Json.null => Except.ok none
  | Json.obj kvs =>
    match decodeStageEntries kvs (cur.getD []) with
    | Except.ok m => Except.ok (some m)
    | Except.error e => Except.error e
  | _ => Except.error "json: cannot unmarshal into Go value of type map[string]float64"

/-- Unmarshal of the members of an object into a struct: a member whose key
names a field is decoded into that field, other members are skipped. -/
def decodeMembers {α : Type} (fields : List (String × (Json → α → Except String α))) :
    List (String × Json) → α → Except String α
  | [], cur => Except.ok cur
  | (k, v) :: rest, cur =>
    match findField fields k with
    | none => decodeMembers fields rest cur
    | some upd =>
      match upd v cur with
      | Except.ok cur' => decodeMembers fields rest cur'
      | Except.error e => Except.error e

/-- Unmarshal into a struct: an object fills the fields, `null` changes
nothing, anything else is a type error. -/
def decodeStruct {α : Type} (fields : List (String × (Json → α → Except String α)))
    (j : Json) (cur : α) : Except String α :=
  match j with
  | Json.obj kvs => decodeMembers fields kvs cur
  | Json.null => Except.ok cur
  | _ => Except.error "json: cannot unmarshal into Go struct"

/-- Decode a member into one field of a struct value. -/
def intoField {α β : Type} (dec : Json → β → Except String β) (get : α → β)
    (set : α → β → α) : Json → α → Except String α :=
  fun j cur =>
    match dec j (get cur) with
    | Except.ok b => Except.ok (set cur b)
    | Except.error e => Except.error e

/-- Field table of `timingsReport`. -/
def timingsFields : List (String × (Json → timingsReport → Except String timingsReport)) :=
  [("total_ms", intoField decodeFloat (fun t => t.TotalMs) (fun t v => { t with TotalMs := v })),
   ("stages_ms", intoField decodeStages (fun t => t.Stages) (fun t v => { t with Stages := v }))]

/-- Field table of `benchStats`. -/
def benchFields : List (String × (Json → benchStats → Except String benchStats)) :=
  [("ns_per_op", intoField decodeFloat (fun b => b.NsPerOp) (fun b v => { b with NsPerOp := v })),
   ("bytes_per_op",
      intoField decodeFloat (fun b => b.BytesPerOp) (fun b v => { b with BytesPerOp := v })),
   ("allocs_per_op",
      intoField decodeFloat (fun b => b.AllocsPerOp) (fun b v => { b with AllocsPerOp := v }))]

/-- Field table of `runMetadata`. -/
def metadataFields : List (String × (Json → runMetadata → Except String runMetadata)) :=
  [("run_id", intoField decodeString (fun m => m.RunID) (fun m v => { m with RunID := v })),
   ("suite", intoField decodeString (fun m => m.Suite) (fun m v => { m with Suite := v })),
   ("label", intoField decodeString (fun m => m.Label) (fun m v => { m with Label := v })),
   ("commit_sha",
      intoField decodeString (fun m => m.CommitSHA) (fun m v => { m with CommitSHA := v })),
   ("branch", intoField decodeString (fun m => m.Branch) (fun m v => { m with Branch := v })),
   ("go_version",
      intoField decodeString (fun m => m.GoVersion) (fun m v => { m with GoVersion := v })),
   ("ffmpeg_version",
      intoField decodeString (fun m => m.Ffmpeg) (fun m v => { m with Ffmpeg := v })),
   ("os", intoField decodeString (fun m => m.OS) (fun m v => { m with OS := v })),
   ("arch", intoField decodeString (fun m => m.Arch) (fun m v => { m with Arch := v })),
   ("cli_args", intoField decodeString (fun m => m.CLIArgs) (fun m v => { m with CLIArgs := v })),
   ("timestamp_iso",
      intoField decodeString (fun m => m.TimestampISO) (fun m v => { m with TimestampISO := v }))]

/-- Field table of `runResult`. -/
def runResultFields : List (String × (Json → runResult → Except String runResult)) :=
  [("metadata", intoField (decodeStruct metadataFields) (fun r => r.Metadata)
      (fun r v => { r with Metadata := v })),
   ("timings_ms", intoField (decodeStruct timingsFields) (fun r => r.Timings)
      (fun r v => { r with Timings := v })),
   ("bench", intoField (decodeStruct benchFields) (fun r => r.Bench)
      (fun r v => { r with Bench := v })),
   ("detections", intoField decodeInt (fun r => r.Detections)
      (fun r v => { r with Detections := v })),
   ("notes", intoField decodeString (fun r => r.Notes) (fun r v => { r with Notes := v }))]

/-- Field table of the baseline pointer `struct { RunID string }`. -/
def baselineFields : List (String × (Json → String → Except String String)) :=
  [("run_id", decodeString)]

/-! ## File system and run store -/

/-- What a file holds, as `encoding/json` sees it: `none` when the bytes are
not one well-formed JSON text, else the value they denote. -/
abbrev FileData := Option Json

/-- The files by path; `none` for a path that cannot be read. Creating the
directories and the file of a write always succeeds. -/
abbrev FileSystem := String → Option FileData

/-- Elements separated by `/`. -/
def joinSlash : List String → String
  | [] => ""
  | [a] => a
  | a :: b :: rest => a ++ "/" ++ joinSlash (b :: rest)

/-- Path built by `filepath.Join`: the non-empty elements separated by `/`
(the final `Clean` is left out). -/
def filepathJoin (elems : List String) : String :=
  joinSlash (elems.filter (fun e => e ≠ ""))

/-- Write one file. -/
def writeFile (fs : FileSystem) (p : String) (d : FileData) : FileSystem :=
  fun q => if q = p then some d else fs q

/-- Source function `mustWriteRun`. -/
def mustWriteRun (suite runID : String) (res : runResult) (fs : FileSystem) : FileSystem :=
  let dir := filepathJoin ["perf-results", suite]
  let p := filepathJoin [dir, runID ++ ".json"]
  writeFile fs p (some (encodeRunResult res))

/-- Source function `mustReadRun`; `Except.error` is a fatal exit. -/
def mustReadRun (suite runID : String) (fs : FileSystem) : Except String runResult :=
  let p := filepathJoin ["perf-results", suite, runID ++ ".json"]
  match fs p with
  | none => Except.error ("failed to read " ++ p)
  | some none => Except.error ("failed to decode " ++ p)
  | some (some j) =>
    match decodeStruct runResultFields j {} with
    | Except.ok r => Except.ok r
    | Except.error _ => Except.error ("failed to decode " ++ p)

/-- Source function `loadBaselineID`. -/
def loadBaselineID (suite : String) (fs : FileSystem) : String × Bool :=
  let p := filepathJoin ["perf-results", suite, "baseline.json"]
  match fs p with
  | none => ("", false)
  | some none => ("", false)
  | some (some j) =>
    match decodeStruct baselineFields j "" with
    | Except.error _ => ("", false)
    | Except.ok runID => if runID = "" then ("", false) else (runID, true)

/-- Source function `mustWriteBaselineID`. -/
def mustWriteBaselineID (suite runID : String) (fs : FileSystem) : FileSystem :=
  let dir := filepathJoin ["perf-results", suite]
  let p := filepathJoin [dir, "baseline.json"]
  writeFile fs p (some (Json.obj [("run_id", Json.str runID)]))

/-! ## float64 arithmetic -/

/-- Nearest integer, a tie going to the even neighbour. -/
def roundHalfEven (m : ℚ) : ℤ :=
  let f := ⌊m⌋
  let r := m - f
  if r < 1 / 2 then f
  else if 1 / 2 < r then f + 1
  else if f % 2 = 0 then f
  else f + 1

/-- The result of a float64 operation: a finite value, an infinity (the flag
tells whether it is the negative one), or NaN. The sign of a zero is not kept:
it changes none of `==`, `!=` and `>`. -/
inductive Float64 where
  | fin : ℚ → Float64
  | inf : Bool → Float64
  | nan : Float64
deriving DecidableEq, Repr

/-- A positive rational rounded to binary64, to nearest with ties to even:
53 significant bits, the least exponent -1022 (below it the spacing stays
`2^-1074`, the subnormal numbers), and `none` when the rounded value reaches
`2^1024` (overflow). -/
def roundPos (x : ℚ) : Option ℚ :=
  let e := max (Int.log 2 x) (-1022)
  let ulp : ℚ := 2 ^ (e - 52)
  let y := (roundHalfEven (x / ulp) : ℚ) * ulp
  if (2 : ℚ) ^ (1024 : ℕ) ≤ y then none else some y

/-- A rational rounded to binary64; overflow gives the infinity of its sign. -/
def roundF64 (q : ℚ) : Float64 :=
  if q = 0 then Float64.fin 0
  else if 0 < q then
    match roundPos q with
    | some y => Float64.fin y
    | none => Float64.inf false
  else
    match roundPos (-q) with
    | some y => Float64.fin (-y)
    | none => Float64.inf true

/-- The float64 difference `x - y` of two finite values. -/
def Float64.sub (x y : ℚ) : Float64 := roundF64 (x - y)

/-- The float64 quotient `x / a` by a finite value `a` other than zero. -/
def Float64.divFinite (x : Float64) (a : ℚ) : Float64 :=
  match x with
  | Float64.fin d => roundF64 (d / a)
  | Float64.inf s => Float64.inf (s != decide (a < 0))
  | Float64.nan => Float64.nan

/-- The float64 product `x * c` with a finite value `c`. -/
def Float64.mulFinite (x : Float64) (c : ℚ) : Float64 :=
  match x with
  | Float64.fin d => roundF64 (d * c)
  | Float64.inf s => if c = 0 then Float64.nan else Float64.inf (s != decide (c < 0))
  | Float64.nan => Float64.nan

/-- The float64 comparison `x > t`: false when either side is NaN. -/
def Float64.gt : Float64 → Float64 → Bool
  | Float64.fin p, Float64.fin t => decide (p > t)
  | Float64.fin _, Float64.inf neg => neg
  | Float64.inf neg, Float64.fin _ => !neg
  | Float64.inf neg, Float64.inf neg' => !neg && neg'
  | _, _ => false

/-! ## Comparator -/

/-- One line of the comparison report: the header (the two run identifiers and
the threshold), a metric reported `n/a`, or a metric reported with its two
values, the percent change and the regression flag. -/
inductive cmpLine where
  | header : String → String → ℚ → cmpLine
  | na : String → cmpLine
  | change : String → ℚ → ℚ → Float64 → Bool → cmpLine
deriving DecidableEq, Repr

/-- The closure `cmp` of `printComparison`, for any threshold it can capture
(`--threshold` is read with `Sscanf("%f")`, which also accepts `Inf` and
`NaN`). The values `a` and `b` are finite: they come from JSON numbers and
from figures matched by `[0-9\.e\+]+`. The operations `b - a`, `delta / a`,
`* 100.0` and `pct > thresholdPct` are those of float64. -/
def cmpAt (thresholdPct : Float64) (name : String) (a b : ℚ) : cmpLine :=
  if a = 0 ∧ b = 0 then cmpLine.na name
  else
    let delta := Float64.sub b a
    let pct := if a ≠ 0 then (delta.divFinite a).mulFinite 100 else Float64.fin 0
    let flag := pct.gt thresholdPct
    cmpLine.change name a b pct flag

/-- The closure `cmp` of `printComparison` with a finite threshold. -/
def cmp (thresholdPct : ℚ) (name : String) (a b : ℚ) : cmpLine :=
  cmpAt (Float64.fin thresholdPct) name a b

/-- Source function `printComparison`, with the printed lines as a structured report. -/
def printComparison (lhsID : String) (lhs : runResult) (rhsID : String) (rhs : runResult)
    (thresholdPct : ℚ) : List cmpLine :=
  [cmpLine.header lhsID rhsID thresholdPct,
   cmp thresholdPct "total_ms" lhs.Timings.TotalMs rhs.Timings.TotalMs,
   cmp thresholdPct "analysis_ms" (stageValue lhs.Timings.Stages "video_analysis")
     (stageValue rhs.Timings.Stages "video_analysis"),
   cmp thresholdPct "detection_ms" (stageValue lhs.Timings.Stages "video_detection")
     (stageValue rhs.Timings.Stages "video_detection"),
   cmp thresholdPct "ns/op" lhs.Bench.NsPerOp rhs.Bench.NsPerOp,
   cmp thresholdPct "B/op" lhs.Bench.BytesPerOp rhs.Bench.BytesPerOp,
   cmp thresholdPct "allocs/op" lhs.Bench.AllocsPerOp rhs.Bench.AllocsPerOp]

/-! ## Argument handling -/

/-- State of the loop of `parseArgs`. -/
structure argState where
  args : List String
  buf : List Char
  inSingle : Bool
  inDouble : Bool
deriving DecidableEq, Repr

/-- The closure `flush` of `parseArgs`. -/
def flush (st : argState) : argState :=
  if st.buf.length > 0 then { st with args := st.args ++ [String.mk st.buf], buf := [] }
  else st

/-- One turn of the loop of `parseArgs` (rune 39 is the single quote, rune 34
the double quote). A `case` that does not `continue` falls out of the `switch`
to `buf.WriteRune(r)`. -/
def parseArgsStep (st : argState) (r : Char) : argState :=
  if r = Char.ofNat 39 then
    if !st.inDouble then { st with inSingle := !st.inSingle }
    else { st with buf := st.buf ++ [r] }
  else if r = Char.ofNat 34 then
    if !st.inSingle then { st with inDouble := !st.inDouble }
    else { st with buf := st.buf ++ [r] }
  else if r = ' ' ∨ r = '\t' ∨ r = '\n' then
    if !st.inSingle && !st.inDouble then flush st
    else { st with buf := st.buf ++ [r] }
  else { st with buf := st.buf ++ [r] }

/-- Source function `parseArgs`. -/
def parseArgs (s : String) : List String :=
  (flush (s.toList.foldl parseArgsStep ⟨[], [], false, false⟩)).args

/-- Source function `hasArg`. -/
def hasArg : List String → String → Bool
  | [], _ => false
  | a :: rest, key => if a = key then true else hasArg rest key

/-- The argument augmentation at the head of `runOnceForTimingsAndDetections`. -/
def augmentArgs (args : List String) : List String :=
  let args1 := if !hasArg args "--export-timings" then args ++ ["--export-timings"] else args
  let args2 :=
    if !hasArg args1 "-v" && !hasArg args1 "--verbose" then args1 ++ ["-v"] else args1
  let args3 :=
    if !hasArg args2 "-f" && !hasArg args2 "--skip-frames-export" then args2 ++ ["-f"]
    else args2
  args3

/-- Source function `findOutputDir`. -/
def findOutputDir : List String → String
  | [] => ""
  | a :: rest =>
    if a = "-o" ∨ a = "--output-directory-path" then
      match rest with
      | b :: _ => b
      | [] => findOutputDir rest
    else findOutputDir rest

/-- The determination of the output directory in
`runOnceForTimingsAndDetections`: fatal when `findOutputDir` returns the empty string. -/
def determineOutputDir (args : List String) : Except String String :=
  let outDir := findOutputDir args
  if outDir = "" then Except.error "could not determine output directory from CLI args"
  else Except.ok outDir

/-! ## Detection counting -/

/-- Pieces of a text between newlines, as `bufio.ScanLines` cuts them; text
after the last newline is a piece of its own when it is not empty. -/
def cutLines : List Char → List Char → List (List Char)
  | [], cur => if cur = [] then [] else [cur]
  | c :: cs, cur => if c = '\n' then cur :: cutLines cs [] else cutLines cs (cur ++ [c])

/-- One trailing carriage return is dropped from a line (`dropCR`). -/
def dropCR (l : List Char) : List Char :=
  if l.getLast? = some '\r' then l.dropLast else l

/-- Size in bytes of the UTF-8 form of a run of runes. -/
def utf8Len (l : List Char) : Nat := (l.map (fun c => c.utf8Size)).sum

/-- Limit `bufio.MaxScanTokenSize` of the scanner's buffer. -/
def MaxScanTokenSize : Nat := 64 * 1024

/-- The lines a `bufio.Scanner` delivers: it stops for good at the first line
that fills the buffer before its newline shows up. -/
def scanTokens : List (List Char) → List (List Char)
  | [] => []
  | l :: ls => if utf8Len l ≥ MaxScanTokenSize then [] else dropCR l :: scanTokens ls

/-- Substring test `strings.Contains`. -/
def containsSub : List Char → List Char → Bool
  | [], sub => sub.isEmpty
  | c :: cs, sub => (sub.isPrefixOf (c :: cs)) || containsSub cs sub

/-- The sentinel of one positive detection. -/
def sentinel : String := "Frame meets the threshold requirements."

/-- Source function `countDetections` on the whole output stream. -/
def countDetections (r : String) : Int :=
  (((scanTokens (cutLines r.toList [])).filter
    (fun line => containsSub line sentinel.toList)).length : Int)

/-! ## Run executor -/

/-- White space as `strings.TrimSpace` sees it (`unicode.IsSpace`). -/
def isSpaceUnicode (c : Char) : Bool :=
  c == '\t' || c == '\n' || c == Char.ofNat 11 || c == Char.ofNat 12 || c == '\r' || c == ' ' ||
  c == Char.ofNat 0x85 || c == Char.ofNat 0xA0 || c == Char.ofNat 0x1680 ||
  (decide (0x2000 ≤ c.toNat) && decide (c.toNat ≤ 0x200A)) ||
  c == Char.ofNat 0x2028 || c == Char.ofNat 0x2029 || c == Char.ofNat 0x202F ||
  c == Char.ofNat 0x205F || c == Char.ofNat 0x3000

/-- Library function `strings.TrimSpace`. -/
def TrimSpace (s : String) : String :=
  String.mk ((s.toList.dropWhile isSpaceUnicode).reverse.dropWhile isSpaceUnicode).reverse

/-- First element of `strings.Split(s, "\n")`. -/
def firstLine (s : String) : String :=
  String.mk (s.toList.takeWhile (fun c => c ≠ '\n'))

/-- What one run of the detector subprocess does, as far as the executor can
see: whether the pipe and the start succeed, the standard output, whether the
exit is clean, and the files once it has exited. -/
structure DetectorRun where
  pipeOk : Bool
  startOk : Bool
  stdout : String
  waitOk : Bool
  files : FileSystem

/-- The world around one suite execution. -/
structure Env where
  runCmdOutSilent : String → List String → String
  GOOS : String
  GOARCH : String
  now : String
  goTestBench : String → Bool × String
  detector : List String → DetectorRun

/-- Source function `runBench`: fatal when `go test` fails, else the parsed output. -/
def runBench (env : Env) (cliArgs : String) (_opts : runOpts) : Except String benchStats :=
  let (ok, out) := env.goTestBench cliArgs
  if !ok then Except.error ("go test bench failed: " ++ out)
  else Except.ok (parseBench out)

/-- Source function `runOnceForTimingsAndDetections`. -/
def runOnceForTimingsAndDetections (env : Env) (cliArgs : String) (_opts : runOpts) :
    Except String (timingsReport × Int) :=
  let args := augmentArgs (parseArgs cliArgs)
  let run := env.detector args
  if !run.pipeOk then Except.error "failed to capture stdout"
  else if !run.startOk then Except.error "failed to start detector"
  else
    let detections := countDetections run.stdout
    if !run.waitOk then Except.error "detector failed"
    else
      match determineOutputDir args with
      | Except.error e => Except.error e
      | Except.ok outDir =>
        let tj := filepathJoin [outDir, "timings.json"]
        match run.files tj with
        | none => Except.error ("failed to open " ++ tj)
        | some none => Except.error "failed to decode timings.json"
        | some (some j) =>
          match decodeStruct timingsFields j {} with
          | Except.error _ => Except.error "failed to decode timings.json"
          | Except.ok tr => Except.ok (tr, detections)

/-- Source function `mustExecuteSuite`. -/
def mustExecuteSuite (env : Env) (suite runID label cliArgs : String) (opts : runOpts) :
    Except String runResult :=
  let sha := env.runCmdOutSilent "git" ["rev-parse", "--short", "HEAD"]
  let branch := env.runCmdOutSilent "git" ["rev-parse", "--abbrev-ref", "HEAD"]
  let goVer := env.runCmdOutSilent "go" ["version"]
  let ffVer := firstLine (env.runCmdOutSilent "ffmpeg" ["-version"])
  let meta : runMetadata :=
    { RunID := runID, Suite := suite, Label := label, CommitSHA := TrimSpace sha,
      Branch := TrimSpace branch, GoVersion := TrimSpace goVer, Ffmpeg := TrimSpace ffVer,
      OS := env.GOOS, Arch := env.GOARCH, CLIArgs := cliArgs, TimestampISO := env.now }
  match runBench env cliArgs opts with
  | Except.error e => Except.error e
  | Except.ok bench =>
    match runOnceForTimingsAndDetections env cliArgs opts with
    | Except.error e => Except.error e
    | Except.ok (timings, detections) =>
      Except.ok { Metadata := meta, Timings := timings, Bench := bench,
                  Detections := detections }

/-! ## Definitions on the side of the specification, and examples -/

/-- The rune before the place reached after reading `xs`. -/
def endPrev : Option Char → List Char → Option Char
  | prev, [] => prev
  | _, x :: xs => endPrev (some x) xs

/-- The fields of a benchmark summary line that carries all three figures. -/
structure SummaryLine where
  sfx : List Char
  ws1 : List Char
  cnt : List Char
  ws2 : List Char
  f1 : List Char
  ws3 : List Char
  ws4 : List Char
  f2 : List Char
  ws5 : List Char
  ws6 : List Char
  f3 : List Char
  ws7 : List Char

/-- A run of blanks inside a line: white space other than a newline, at least one. -/
def isBlanks (ws : List Char) : Prop :=
  ws ≠ [] ∧ ∀ c ∈ ws, isSpaceRe c = true ∧ c ≠ '\n'

/-- A figure: a non-empty run of `[0-9.e+]`. -/
def isFigure (f : List Char) : Prop :=
  f ≠ [] ∧ ∀ c ∈ f, isFigureRe c = true

/-- The line has the shape
`BenchmarkVideoLightningDetectorFromEnvArgs<suffix> <count> <fig> ns/op <fig> B/op <fig> allocs/op`. -/
def SummaryLine.ok (L : SummaryLine) : Prop :=
  (∀ c ∈ L.sfx, isNotSpaceRe c = true) ∧
  isBlanks L.ws1 ∧ (L.cnt ≠ [] ∧ ∀ c ∈ L.cnt, isDigitRe c = true) ∧
  isBlanks L.ws2 ∧ isFigure L.f1 ∧ isBlanks L.ws3 ∧
  isBlanks L.ws4 ∧ isFigure L.f2 ∧ isBlanks L.ws5 ∧
  isBlanks L.ws6 ∧ isFigure L.f3 ∧ isBlanks L.ws7

/-- The text of the line. -/
def SummaryLine.text (L : SummaryLine) : List Char :=
  benchName ++ (L.sfx ++ (L.ws1 ++ (L.cnt ++
    (L.ws2 ++ (L.f1 ++ (L.ws3 ++ ("ns/op".toList ++
      (L.ws4 ++ (L.f2 ++ (L.ws5 ++ ("B/op".toList ++
        (L.ws6 ++ (L.f3 ++ (L.ws7 ++ "allocs/op".toList))))))))))))))

/-- Lines joined by newlines (no newline after the last one). -/
def joinLines : List (List Char) → List Char
  | [] => []
  | [l] => l
  | l :: l' :: ls => l ++ '\n' :: joinLines (l' :: ls)

/-- A line other than the summary line: no newline inside, and it does not
begin with the benchmark name. -/
def otherLine (l : List Char) : Prop := '\n' ∉ l ∧ ¬ benchName <+: l

/-- What follows a line in the joined text: nothing, or a newline and the lines after it. -/
def tailOf (after : List (List Char)) : List Char :=
  match after with
  | [] => []
  | _ :: _ => '\n' :: joinLines after

/-- A line of a benchmark text that keeps every match inside one line: a
summary line with its three figures, or a line that does not begin with the
benchmark name. -/
inductive TextLine where
  | other : List Char → TextLine
  | summary : SummaryLine → TextLine

/-- The runes of a line. -/
def TextLine.text : TextLine → List Char
  | TextLine.other l => l
  | TextLine.summary L => L.text

/-- The submatches a line contributes, if it is a summary line. -/
def TextLine.groups : TextLine → Option (List (List Char))
  | TextLine.other _ => none
  | TextLine.summary L => some [L.text, L.f1, L.f2, L.f3]

/-- The line is well formed. -/
def TextLine.ok : TextLine → Prop
  | TextLine.other l => otherLine l
  | TextLine.summary L => L.ok

/-- The lines of a text: the pieces between newlines. -/
def splitLines : List Char → List (List Char)
  | [] => [[]]
  | c :: cs =>
    if c = '\n' then [] :: splitLines cs
    else
      match splitLines cs with
      | [] => [[c]]
      | l :: ls => (c :: l) :: ls

/-- The submatches of a line that, taken alone, matches `benchLine` from its
first to its last rune. -/
def matchLine (l : List Char) : Option (List (List Char)) :=
  match execAt benchLine benchLineGroups ⟨none, l⟩ with
  | some m => if m.stop.rest = [] then some m.groups else none
  | none => none

/-- The spec's reading of the extractor, line by line: the submatches of the
last line of the text that matches the shape. -/
def lastMatchingLine (output : String) : Option (List (List Char)) :=
  ((splitLines output.toList).filterMap matchLine).getLast?

/-- The stats read from the submatches of one line. -/
def statsOfGroups (m : List (List Char)) : benchStats :=
  { NsPerOp := sscanfFloat (m.getD 1 []),
    BytesPerOp := sscanfFloat (m.getD 2 []),
    AllocsPerOp := sscanfFloat (m.getD 3 []) }

/-- A stage is missing from a timing report: the map is nil or has no entry for it. -/
def stageMissing (t : timingsReport) (k : String) : Prop :=
  match t.Stages with
  | none => True
  | some kvs => ∀ v, (k, v) ∉ kvs

/-- An argument is the output-directory flag, in its short or its long form. -/
def isOutFlag (a : String) : Prop := a = "-o" ∨ a = "--output-directory-path"

/-- An example summary line:
`BenchmarkVideoLightningDetectorFromEnvArgs 100 123.0 ns/op 45 B/op 2 allocs/op`. -/
def exampleLine : SummaryLine :=
  { sfx := [], ws1 := [' '], cnt := "100".toList, ws2 := [' '], f1 := "123.0".toList,
    ws3 := [' '], ws4 := [' '], f2 := "45".toList, ws5 := [' '], ws6 := [' '],
    f3 := "2".toList, ws7 := [' '] }

/-- The summary line of a `go test -v -bench` report. -/
def goTestLine : SummaryLine :=
  { sfx := "-8".toList, ws1 := "   \t       ".toList, cnt := "1".toList, ws2 := ['\t'],
    f1 := "3216".toList, ws3 := [' '], ws4 := "\t    ".toList, f2 := "4096".toList,
    ws5 := [' '], ws6 := "\t       ".toList, f3 := "1".toList, ws7 := [' '] }

/-- What `go test -v -bench` prints before the summary line; with `-v` this
includes a line that holds the benchmark name alone. -/
def goTestHead : String :=
  "goos: linux\ngoarch: amd64\npkg: vld\nBenchmarkVideoLightningDetectorFromEnvArgs\n"

/-- What `go test` prints after the summary line. -/
def goTestTail : String := "\nPASS\nok  \tvld\t1.512s\n"

/-- The whole report. -/
def goTestText : String :=
  "goos: linux\ngoarch: amd64\npkg: vld\nBenchmarkVideoLightningDetectorFromEnvArgs\nBenchmarkVideoLightningDetectorFromEnvArgs-8   \t       1\t3216 ns/op\t    4096 B/op\t       1 allocs/op\nPASS\nok  \tvld\t1.512s\n"

/-- A line with the three figures, followed by a line with the ns/op figure only. -/
def laterLineText : String :=
  "BenchmarkVideoLightningDetectorFromEnvArgs 100 123.0 ns/op 45 B/op 2 allocs/op\nBenchmarkVideoLightningDetectorFromEnvArgs 1 250 ns/op"

/-- The expression keeps a scan before the line that starts at `tl`: started
at a place before that line (the text up to the line ends with a newline), it
hands over to what follows it at a place that is still before the line. -/
def Keeps (tl : List Char) (re : Re) : Prop :=
  ∀ (R : Type) (s : Cursor) (caps : List (List Char))
    (k : Cursor → List (List Char) → Option R) (r : R) (u : List Char),
    re.run s caps k = some r → u.getLast? = some '\n' → s.rest = u ++ tl →
    ∃ s' caps' u', u'.getLast? = some '\n' ∧ s'.rest = u' ++ tl ∧ u'.length ≤ u.length ∧
      k s' caps' = some r

/-- The expression cannot start at the first rune of the line that starts at
`tl`: started before the line or right at its start, it hands over at a place
before the line. -/
def Recovers (tl : List Char) (re : Re) : Prop :=
  ∀ (R : Type) (s : Cursor) (caps : List (List Char))
    (k : Cursor → List (List Char) → Option R) (r : R) (u : List Char),
    re.run s caps k = some r → (u = [] ∨ u.getLast? = some '\n') → s.rest = u ++ tl →
    ∃ s' caps' u', u'.getLast? = some '\n' ∧ s'.rest = u' ++ tl ∧ u'.length ≤ u.length ∧
      k s' caps' = some r

/-- Two summary lines, the second without an allocs/op group, followed by a
line that starts with a figure and `allocs/op`. -/
def mixedLinesText : String :=
  "BenchmarkVideoLightningDetectorFromEnvArgs-8 1 100 ns/op 10 B/op 1 allocs/op\nBenchmarkVideoLightningDetectorFromEnvArgs-8 1 200 ns/op 20 B/op\n3 allocs/op"

/-- A summary line with the ns/op figure only, followed by a line that starts
with figures for `B/op` and `allocs/op`. -/
def bareLineText : String :=
  "BenchmarkVideoLightningDetectorFromEnvArgs-8 1 250 ns/op\n64 B/op 3 allocs/op"

/-- The entries of a stage map are those of another: both nil, or the same
entries up to their order. -/
def sameStages : Option (List (String × ℚ)) → Option (List (String × ℚ)) → Prop
  | none, none => True
  | some a, some b => a.Perm b
  | _, _ => False

/-- The keys of the stage map are distinct (as in every Go map). -/
def distinctKeys (m : Option (List (String × ℚ))) : Prop :=
  match m with
  | none => True
  | some kvs => (kvs.map Prod.fst).Nodup

/-- An example run result with zero numbers, empty strings and a nil stage map. -/
def zeroRun : runResult := {}

/-- An example run result with two stages, an empty external-tool version and
empty notes. -/
def sampleRun : runResult :=
  { Metadata := { RunID := "20240101-000000_run", Suite := "full", Label := "run",
                  OS := "linux", Arch := "amd64", CLIArgs := "-i sample.mp4 -o out -a -s 0.4" },
    Timings := { TotalMs := 25 / 2,
                 Stages := some [("video_detection", 5), ("video_analysis", 7)] },
    Bench := { NsPerOp := 1234567890, BytesPerOp := 0, AllocsPerOp := 12 },
    Detections := 3 }

/-- A timing artifact with a positive total: `{"total_ms": 12.5, "stages_ms": {"video_analysis": 7}}`. -/
def sampleTimings : Json :=
  Json.obj [("total_ms", Json.num (25 / 2)),
    ("stages_ms", Json.obj [("video_analysis", Json.num 7)])]

/-- A world in which every external step succeeds: the benchmark run and the
detector exit cleanly, and the timing artifact can be read under every path. -/
def happyEnv : Env :=
  { runCmdOutSilent := fun _ _ => "",
    GOOS := "linux",
    GOARCH := "amd64",
    now := "2024-01-01T00:00:00Z",
    goTestBench := fun _ => (true, "PASS\n"),
    detector := fun _ =>
      { pipeOk := true, startOk := true,
        stdout := "Frame meets the threshold requirements.\n",
        waitOk := true,
        files := fun _ => some (some sampleTimings) } }

/-- Options of a default run. -/
def defaultOpts : runOpts := { echo := true, verbose := false, stream := true, threshold := 5 }

/-- The line contains the sentinel as a substring. -/
def hasSentinel (line : List Char) : Bool := decide (sentinel.toList <:+: line)

/-- The number of lines of the stream (the pieces between newlines) that
contain the sentinel. -/
def sentinelLineCount (r : String) : Int :=
  (((splitLines r.toList).filter hasSentinel).length : Int)

/-- A stream whose first line is 100000 bytes long and whose second line is the sentinel. -/
def longLineStream : String :=
  String.mk (List.replicate 100000 'a' ++ '\n' :: sentinel.toList)

/-- The lines without a last line that is empty. -/
def dropLastEmpty : List (List Char) → List (List Char)
  | [] => []
  | [l] => if l = [] then [] else [l]
  | l :: l' :: ls => l :: dropLastEmpty (l' :: ls)

/-- Runes put in front of the first line. -/
def onFirstLine (cur : List Char) : List (List Char) → List (List Char)
  | [] => []
  | l :: ls => (cur ++ l) :: ls

/-- The rune is a single or a double quote. -/
def isQuoteRune (c : Char) : Bool := c == Char.ofNat 39 || c == Char.ofNat 34

/-- The rune separates arguments when it stands outside quotes: space, tab or newline. -/
def isSplitRune (c : Char) : Bool := c == ' ' || c == '\t' || c == '\n'

/-- An argument as it is written into a command line: wrapped in double quotes
when it contains a space, tab or newline, and as it is otherwise. -/
def quoteArg (a : String) : List Char :=
  if a.toList.any isSplitRune then Char.ofNat 34 :: (a.toList ++ [Char.ofNat 34])
  else a.toList

/-- The written arguments joined by single spaces. -/
def joinQuoted : List String → List Char
  | [] => []
  | [a] => quoteArg a
  | a :: b :: rest => quoteArg a ++ ' ' :: joinQuoted (b :: rest)

/-- An argument that is not empty and contains no quote character. -/
def plainArg (a : String) : Prop := a ≠ "" ∧ ∀ c ∈ a.toList, isQuoteRune c = false

/-! ## Lemmas -/

theorem stripLit_append (l : List Char) (prev : Option Char) (rest : List Char) :
    stripLit l prev (l ++ rest) = some ⟨endPrev prev l, rest⟩ := by
  induction l generalizing prev with
  | nil => cases rest <;> simp [stripLit, endPrev]
  | cons c cs ih => simp [stripLit, endPrev, ih]

theorem stripLit_eq_none (l : List Char) (prev : Option Char) (rest : List Char)
    (h : ¬ l <+: rest) : stripLit l prev rest = none := by
  induction l generalizing prev rest with
  | nil => exact absurd (List.nil_prefix) h
  | cons c cs ih =>
    cases rest with
    | nil => simp [stripLit]
    | cons d ds =>
      simp only [stripLit]
      split
      · rename_i hcd
        subst hcd
        apply ih
        intro hp
        exact h ((List.prefix_cons_inj c).2 hp)
      · rfl

theorem starRun_append {R : Type} (p : Char → Bool) (xs rest : List Char) (prev : Option Char)
    (k : Cursor → Option R) (r : R)
    (hxs : ∀ c ∈ xs, p c = true) (hrest : ∀ c, rest.head? = some c → p c = false)
    (hk : k ⟨endPrev prev xs, rest⟩ = some r) :
    starRun p prev (xs ++ rest) k = some r := by
  induction xs generalizing prev with
  | nil =>
    cases rest with
    | nil => simpa [starRun, endPrev] using hk
    | cons d ds =>
      have : p d = false := hrest d rfl
      simpa [starRun, endPrev, this] using hk
  | cons x xs ih =>
    have hx : p x = true := hxs x (List.mem_cons_self _ _)
    have := ih (some x) (fun c hc => hxs c (List.mem_cons_of_mem _ hc)) (by simpa [endPrev] using hk)
    simp [starRun, hx, this]

theorem consumed_append (prev q : Option Char) (xs rest : List Char) :
    consumed ⟨prev, xs ++ rest⟩ ⟨q, rest⟩ = xs := by
  simp [consumed]

theorem plus_run_append {R : Type} (p : Char → Bool) (xs rest : List Char) (prev : Option Char)
    (caps : List (List Char)) (k : Cursor → List (List Char) → Option R) (r : R)
    (hne : xs ≠ []) (hxs : ∀ c ∈ xs, p c = true) (hrest : ∀ c, rest.head? = some c → p c = false)
    (hk : k ⟨endPrev prev xs, rest⟩ caps = some r) :
    (Re.plus p).run ⟨prev, xs ++ rest⟩ caps k = some r := by
  cases xs with
  | nil => exact absurd rfl hne
  | cons x xs =>
    have hx : p x = true := hxs x (List.mem_cons_self _ _)
    simp only [Re.run, List.cons_append, hx, if_true]
    exact starRun_append p xs rest (some x) _ r (fun c hc => hxs c (List.mem_cons_of_mem _ hc))
      hrest (by simpa [endPrev] using hk)

theorem lit_run_append {R : Type} (l rest : List Char) (prev : Option Char)
    (caps : List (List Char)) (k : Cursor → List (List Char) → Option R) :
    (Re.lit l).run ⟨prev, l ++ rest⟩ caps k = k ⟨endPrev prev l, rest⟩ caps := by
  simp [Re.run, stripLit_append]

theorem endPrev_append (prev : Option Char) (xs ys : List Char) :
    endPrev prev (xs ++ ys) = endPrev (endPrev prev xs) ys := by
  induction xs generalizing prev with
  | nil => rfl
  | cons x xs ih => simp [endPrev, ih]

theorem head_append_class (p q : Char → Bool) (xs rest : List Char)
    (hne : xs ≠ []) (hxs : ∀ c ∈ xs, q c = true) (hqp : ∀ c, q c = true → p c = false) :
    ∀ c, (xs ++ rest).head? = some c → p c = false := by
  intro c hc
  cases xs with
  | nil => exact absurd rfl hne
  | cons x xs =>
    simp at hc
    subst hc
    exact hqp _ (hxs _ (List.mem_cons_self _ _))

theorem isSpaceRe_iff (c : Char) :
    isSpaceRe c = true ↔ c = '\t' ∨ c = '\n' ∨ c = Char.ofNat 12 ∨ c = '\r' ∨ c = ' ' := by
  simp [isSpaceRe, or_assoc]

theorem figure_not_space (c : Char) (h : isFigureRe c = true) : isSpaceRe c = false := by
  rw [Bool.eq_false_iff]
  intro hs
  rw [isSpaceRe_iff] at hs
  rcases hs with h1 | h1 | h1 | h1 | h1 <;> subst h1 <;> revert h <;> decide

theorem digit_not_space (c : Char) (h : isDigitRe c = true) : isSpaceRe c = false := by
  rw [Bool.eq_false_iff]
  intro hs
  rw [isSpaceRe_iff] at hs
  rcases hs with h1 | h1 | h1 | h1 | h1 <;> subst h1 <;> revert h <;> decide

theorem space_not_figure (c : Char) (h : isSpaceRe c = true) : isFigureRe c = false := by
  rw [isSpaceRe_iff] at h
  rcases h with h1 | h1 | h1 | h1 | h1 <;> subst h1 <;> decide

theorem space_not_digit (c : Char) (h : isSpaceRe c = true) : isDigitRe c = false := by
  rw [isSpaceRe_iff] at h
  rcases h with h1 | h1 | h1 | h1 | h1 <;> subst h1 <;> decide

theorem space_not_notSpace (c : Char) (h : isSpaceRe c = true) : isNotSpaceRe c = false := by
  simp [isNotSpaceRe, h]

theorem seq_run {R : Type} (a b : Re) (s : Cursor) (caps : List (List Char))
    (k : Cursor → List (List Char) → Option R) :
    (Re.seq a b).run s caps k = a.run s caps (fun s' caps' => b.run s' caps' k) := rfl

theorem group_run {R : Type} (i : Nat) (a : Re) (s : Cursor) (caps : List (List Char))
    (k : Cursor → List (List Char) → Option R) :
    (Re.group i a).run s caps k =
      a.run s caps (fun s' caps' => k s' (caps'.set i (consumed s s'))) := rfl

theorem figureThenUnit_run {R : Type} (i : Nat) (unit ws f ws' rest : List Char)
    (prev : Option Char) (caps : List (List Char))
    (k : Cursor → List (List Char) → Option R) (r : R)
    (hws : ws ≠ [] ∧ ∀ c ∈ ws, isSpaceRe c = true)
    (hf : f ≠ [] ∧ ∀ c ∈ f, isFigureRe c = true)
    (hws' : ws' ≠ [] ∧ ∀ c ∈ ws', isSpaceRe c = true)
    (hunit : ∀ c, unit.head? = some c → isSpaceRe c = false)
    (hune : unit ≠ [])
    (hk : k ⟨endPrev prev (ws ++ (f ++ (ws' ++ unit))), rest⟩
      (caps.set i f) = some r) :
    (figureThenUnit i unit).run ⟨prev, ws ++ (f ++ (ws' ++ (unit ++ rest)))⟩ caps k = some r := by
  unfold figureThenUnit
  rw [seq_run]
  apply plus_run_append _ _ _ _ _ _ _ hws.1 hws.2
    (head_append_class _ _ _ _ hf.1 hf.2 figure_not_space)
  rw [seq_run, group_run]
  apply plus_run_append _ _ _ _ _ _ _ hf.1 hf.2
    (head_append_class _ _ _ _ hws'.1 hws'.2 space_not_figure)
  rw [consumed_append]
  rw [seq_run]
  apply plus_run_append _ _ _ _ _ _ _ hws'.1 hws'.2
  · intro c hc
    cases unit with
    | nil => exact absurd rfl hune
    | cons u us => exact hunit c (by simpa using hc)
  rw [lit_run_append]
  simpa [endPrev_append] using hk

theorem bol_run {R : Type} (s : Cursor) (caps : List (List Char))
    (k : Cursor → List (List Char) → Option R) :
    Re.bol.run s caps k = if s.prev = none ∨ s.prev = some '\n' then k s caps else none := rfl

theorem eol_run {R : Type} (s : Cursor) (caps : List (List Char))
    (k : Cursor → List (List Char) → Option R) :
    Re.eol.run s caps k =
      if s.rest.head? = none ∨ s.rest.head? = some '\n' then k s caps else none := rfl

theorem opt_run_of_some {R : Type} (a : Re) (s : Cursor) (caps : List (List Char))
    (k : Cursor → List (List Char) → Option R) (r : R) (h : a.run s caps k = some r) :
    (Re.opt a).run s caps k = some r := by
  simp [Re.run, h]

theorem star_run_append {R : Type} (p : Char → Bool) (xs rest : List Char) (prev : Option Char)
    (caps : List (List Char)) (k : Cursor → List (List Char) → Option R) (r : R)
    (hxs : ∀ c ∈ xs, p c = true) (hrest : ∀ c, rest.head? = some c → p c = false)
    (hk : k ⟨endPrev prev xs, rest⟩ caps = some r) :
    (Re.star p).run ⟨prev, xs ++ rest⟩ caps k = some r := by
  simp only [Re.run]
  exact starRun_append p xs rest prev _ r hxs hrest hk

theorem isBlanks.space {ws : List Char} (h : isBlanks ws) :
    ws ≠ [] ∧ ∀ c ∈ ws, isSpaceRe c = true :=
  ⟨h.1, fun c hc => (h.2 c hc).1⟩

theorem endPrev_append_ne (prev : Option Char) (xs ys : List Char) (h : ys ≠ []) :
    endPrev prev (xs ++ ys) = endPrev none ys := by
  rw [endPrev_append]
  cases ys with
  | nil => exact absurd rfl h
  | cons y ys => rfl

theorem execAt_summaryLine (L : SummaryLine) (hL : L.ok) (prev : Option Char) (rest : List Char)
    (hbol : prev = none ∨ prev = some '\n')
    (heol : rest.head? = none ∨ rest.head? = some '\n') :
    execAt benchLine benchLineGroups ⟨prev, L.text ++ rest⟩ =
      some ⟨⟨prev, L.text ++ rest⟩, ⟨some 'p', rest⟩, [L.text, L.f1, L.f2, L.f3]⟩ := by
  obtain ⟨hsfx, h1, hcnt, h2, hf1, h3, h4, hf2, h5, h6, hf3, h7⟩ := hL
  have htext : L.text ++ rest = benchName ++ (L.sfx ++ (L.ws1 ++ (L.cnt ++
    (L.ws2 ++ (L.f1 ++ (L.ws3 ++ ("ns/op".toList ++
      (L.ws4 ++ (L.f2 ++ (L.ws5 ++ ("B/op".toList ++
        (L.ws6 ++ (L.f3 ++ (L.ws7 ++ ("allocs/op".toList ++ rest))))))))))))))) := by
    simp [SummaryLine.text, List.append_assoc]
  unfold execAt benchLine
  rw [seq_run, bol_run, if_pos hbol, seq_run, htext, lit_run_append, seq_run]
  apply star_run_append _ _ _ _ _ _ _ hsfx
    (head_append_class _ _ _ _ h1.space.1 h1.space.2 space_not_notSpace)
  rw [seq_run]
  apply plus_run_append _ _ _ _ _ _ _ h1.space.1 h1.space.2
    (head_append_class _ _ _ _ hcnt.1 hcnt.2 digit_not_space)
  rw [seq_run]
  apply plus_run_append _ _ _ _ _ _ _ hcnt.1 hcnt.2
    (head_append_class _ _ _ _ h2.space.1 h2.space.2 space_not_digit)
  rw [seq_run]
  apply figureThenUnit_run _ _ _ _ _ _ _ _ _ _ h2.space hf1 h3.space (by decide) (by decide)
  rw [seq_run]
  apply opt_run_of_some
  apply figureThenUnit_run _ _ _ _ _ _ _ _ _ _ h4.space hf2 h5.space (by decide) (by decide)
  rw [seq_run]
  apply opt_run_of_some
  apply figureThenUnit_run _ _ _ _ _ _ _ _ _ _ h6.space hf3 h7.space (by decide) (by decide)
  rw [eol_run, if_pos heol, ← htext]
  simp [consumed, benchLineGroups, List.replicate, endPrev_append_ne, endPrev]

theorem execAt_benchLine_none (prev : Option Char) (rest : List Char)
    (h : ¬ (prev = none ∨ prev = some '\n') ∨ ¬ benchName <+: rest) :
    execAt benchLine benchLineGroups ⟨prev, rest⟩ = none := by
  unfold execAt benchLine
  rw [seq_run, bol_run]
  split
  · rename_i hb
    have hp : ¬ benchName <+: rest := h.resolve_left (fun hn => hn hb)
    rw [seq_run]
    simp only [Re.run]
    rw [stripLit_eq_none _ _ _ hp]
  · rfl

theorem joinLines_cons (l : List Char) (ls : List (List Char)) (h : ls ≠ []) :
    joinLines (l :: ls) = l ++ '\n' :: joinLines ls := by
  cases ls with
  | nil => exact absurd rfl h
  | cons l' ls => rfl

theorem benchName_prefix_of_append (l rest : List Char) (h : benchName <+: l ++ '\n' :: rest) :
    benchName <+: l := by
  rcases Nat.lt_or_ge l.length benchName.length with hlt | hge
  · exfalso
    have hmem : '\n' ∈ benchName := by
      obtain ⟨t, ht⟩ := h
      have h1 : (benchName ++ t)[l.length]? = some '\n' := by
        rw [ht, List.getElem?_append_right (le_refl _)]; simp
      rw [List.getElem?_append_left hlt] at h1
      exact List.getElem?_mem h1
    revert hmem
    decide
  · have h2 : l <+: l ++ '\n' :: rest := List.prefix_append _ _
    exact (List.prefix_of_prefix_length_le h h2 hge)

theorem benchName_not_prefix_newline (rest : List Char) : ¬ benchName <+: '\n' :: rest := by
  intro h
  have hb : benchName = 'B' :: benchName.tail := by decide
  rw [hb] at h
  obtain ⟨t, ht⟩ := h
  simp at ht

/-- No match starts inside a line that does not begin with the benchmark name:
the search moves on to the next line. -/
theorem doExecute_skip_line (l rest : List Char) (prev : Option Char)
    (hnl : '\n' ∉ l)
    (h : ¬ (prev = none ∨ prev = some '\n') ∨ ¬ benchName <+: l) :
    doExecute benchLine benchLineGroups prev (l ++ '\n' :: rest) =
      doExecute benchLine benchLineGroups (some '\n') rest := by
  induction l generalizing prev with
  | nil =>
    have : execAt benchLine benchLineGroups ⟨prev, '\n' :: rest⟩ = none :=
      execAt_benchLine_none _ _ (Or.inr (benchName_not_prefix_newline rest))
    simp [doExecute, this]
  | cons c cs ih =>
    have hc : c ≠ '\n' := fun hc => hnl (by simp [hc])
    have : execAt benchLine benchLineGroups ⟨prev, c :: cs ++ '\n' :: rest⟩ = none := by
      apply execAt_benchLine_none
      rcases h with h | h
      · exact Or.inl h
      · exact Or.inr (fun hp => h (benchName_prefix_of_append _ _ hp))
    simp only [List.cons_append] at this ⊢
    rw [doExecute, this]
    simp only []
    apply ih
    · intro hm; exact hnl (List.mem_cons_of_mem _ hm)
    · left
      simp [hc]

theorem doExecute_last_line (l : List Char) (prev : Option Char)
    (hnl : '\n' ∉ l)
    (h : ¬ (prev = none ∨ prev = some '\n') ∨ ¬ benchName <+: l) :
    doExecute benchLine benchLineGroups prev l = none := by
  induction l generalizing prev with
  | nil =>
    have : execAt benchLine benchLineGroups ⟨prev, []⟩ = none :=
      execAt_benchLine_none _ _ (Or.inr (by decide))
    simp [doExecute, this]
  | cons c cs ih =>
    have hc : c ≠ '\n' := fun hc => hnl (by simp [hc])
    have : execAt benchLine benchLineGroups ⟨prev, c :: cs⟩ = none :=
      execAt_benchLine_none _ _ h
    rw [doExecute, this]
    simp only []
    apply ih
    · intro hm; exact hnl (List.mem_cons_of_mem _ hm)
    · left
      simp [hc]

theorem doExecute_other_lines (ls : List (List Char)) (hls : ∀ l ∈ ls, otherLine l)
    (prev : Option Char) :
    doExecute benchLine benchLineGroups prev (joinLines ls) = none := by
  induction ls generalizing prev with
  | nil => exact doExecute_last_line [] _ (by simp) (Or.inr (by decide))
  | cons l ls ih =>
    have hl := hls l (List.mem_cons_self _ _)
    cases ls with
    | nil => exact doExecute_last_line l _ hl.1 (Or.inr hl.2)
    | cons l' ls' =>
      rw [joinLines_cons _ _ (by simp), doExecute_skip_line _ _ _ hl.1 (Or.inr hl.2)]
      exact ih (fun x hx => hls x (List.mem_cons_of_mem _ hx)) _

theorem joinLines_cons_tailOf (l : List Char) (after : List (List Char)) :
    joinLines (l :: after) = l ++ tailOf after := by
  cases after with
  | nil => simp [joinLines, tailOf]
  | cons a as => rfl

theorem tailOf_head (after : List (List Char)) :
    (tailOf after).head? = none ∨ (tailOf after).head? = some '\n' := by
  cases after <;> simp [tailOf]

theorem doExecute_of_execAt (re : Re) (ncap : Nat) (prev : Option Char) (s : List Char)
    (m : Match) (h : execAt re ncap ⟨prev, s⟩ = some m) :
    doExecute re ncap prev s = some m := by
  cases s with
  | nil => simpa [doExecute] using h
  | cons c cs => simp [doExecute, h]

theorem allMatches_of_none (re : Re) (ncap n : Nat) (pos : Cursor) (pe : Option Nat)
    (h : doExecute re ncap pos.prev pos.rest = none) :
    allMatches re ncap n pos pe = [] := by
  cases n with
  | zero => rfl
  | succ n => simp [allMatches, h]

theorem doExecute_tailOf (after : List (List Char)) (ha : ∀ l ∈ after, otherLine l) :
    doExecute benchLine benchLineGroups (some 'p') (tailOf after) = none := by
  cases after with
  | nil => exact doExecute_last_line [] _ (by simp) (Or.inr (by decide))
  | cons a as =>
    have := doExecute_skip_line [] (joinLines (a :: as)) (some 'p') (by simp) (Or.inl (by decide))
    simp only [List.nil_append] at this
    rw [tailOf, this]
    exact doExecute_other_lines _ ha _

theorem doExecute_joinLines (before after : List (List Char)) (L : SummaryLine) (hL : L.ok)
    (hb : ∀ l ∈ before, otherLine l) (prev : Option Char)
    (hbol : prev = none ∨ prev = some '\n') :
    ∃ pre q, joinLines (before ++ L.text :: after) = pre ++ (L.text ++ tailOf after) ∧
      doExecute benchLine benchLineGroups prev (joinLines (before ++ L.text :: after)) =
        some ⟨⟨q, L.text ++ tailOf after⟩, ⟨some 'p', tailOf after⟩,
          [L.text, L.f1, L.f2, L.f3]⟩ := by
  induction before generalizing prev with
  | nil =>
    refine ⟨[], prev, by simp [joinLines_cons_tailOf], ?_⟩
    simp only [List.nil_append, joinLines_cons_tailOf]
    exact doExecute_of_execAt _ _ _ _ _ (execAt_summaryLine L hL prev _ hbol (tailOf_head after))
  | cons b bs ih =>
    have hbl := hb b (List.mem_cons_self _ _)
    obtain ⟨pre, q, hpre, hex⟩ := ih (fun l hl => hb l (List.mem_cons_of_mem _ hl)) (some '\n')
      (Or.inr rfl)
    refine ⟨b ++ '\n' :: pre, q, ?_, ?_⟩
    · rw [List.cons_append, joinLines_cons _ _ (by simp), hpre]; simp
    · rw [List.cons_append, joinLines_cons _ _ (by simp),
        doExecute_skip_line _ _ _ hbl.1 (Or.inr hbl.2)]
      exact hex

theorem SummaryLine.text_length_pos (L : SummaryLine) : 0 < L.text.length := by
  simp [SummaryLine.text, benchName]

theorem findAll_joinLines (before after : List (List Char)) (L : SummaryLine) (hL : L.ok)
    (hb : ∀ l ∈ before, otherLine l) (ha : ∀ l ∈ after, otherLine l) :
    FindAllStringSubmatch benchLine benchLineGroups (joinLines (before ++ L.text :: after)) =
      [[L.text, L.f1, L.f2, L.f3]] := by
  obtain ⟨pre, q, hpre, hex⟩ := doExecute_joinLines before after L hL hb none (Or.inl rfl)
  unfold FindAllStringSubmatch
  rw [allMatches]
  simp only [hex]
  have hlen : (tailOf after).length ≠ (joinLines (before ++ L.text :: after)).length := by
    rw [hpre]
    have := L.text_length_pos
    simp only [List.length_append]
    omega
  rw [if_neg hlen, allMatches_of_none _ _ _ _ _ (doExecute_tailOf after ha)]

theorem textLines_split (ls : List TextLine) (h : ∀ l ∈ ls, l.ok) :
    (∃ others : List (List Char), (∀ o ∈ others, otherLine o) ∧
      ls.map TextLine.text = others ∧ ls.filterMap TextLine.groups = []) ∨
    (∃ (others : List (List Char)) (L : SummaryLine) (rest : List TextLine),
      (∀ o ∈ others, otherLine o) ∧ L.ok ∧ (∀ l ∈ rest, l.ok) ∧
      rest.length < ls.length ∧
      ls.map TextLine.text = others ++ L.text :: rest.map TextLine.text ∧
      ls.filterMap TextLine.groups =
        [L.text, L.f1, L.f2, L.f3] :: rest.filterMap TextLine.groups) := by
  induction ls with
  | nil => exact Or.inl ⟨[], by simp, rfl, rfl⟩
  | cons l ls ih =>
    have hl := h l (List.mem_cons_self _ _)
    have hrest : ∀ x ∈ ls, x.ok := fun x hx => h x (List.mem_cons_of_mem _ hx)
    cases l with
    | summary L =>
      exact Or.inr ⟨[], L, ls, by simp, hl, hrest, by simp, rfl, rfl⟩
    | other o =>
      rcases ih hrest with ⟨others, ho, hm, hf⟩ | ⟨others, L, rest, ho, hL, hr, hlen, hm, hf⟩
      · refine Or.inl ⟨o :: others, ?_, ?_, ?_⟩
        · intro x hx
          rcases List.mem_cons.1 hx with rfl | hx
          · exact hl
          · exact ho x hx
        · simp [TextLine.text, hm]
        · simp [TextLine.groups, hf]
      · refine Or.inr ⟨o :: others, L, rest, ?_, hL, hr, ?_, ?_, ?_⟩
        · intro x hx
          rcases List.mem_cons.1 hx with rfl | hx
          · exact hl
          · exact ho x hx
        · simp only [List.length_cons]; omega
        · simp [TextLine.text, hm]
        · simp [TextLine.groups, hf]

theorem tailOf_cons (l : List Char) (ls : List (List Char)) :
    tailOf (l :: ls) = '\n' :: (l ++ tailOf ls) := by
  simp [tailOf, joinLines_cons_tailOf]

theorem groups_length_le (ls : List TextLine) :
    (ls.filterMap TextLine.groups).length ≤ (tailOf (ls.map TextLine.text)).length := by
  induction ls with
  | nil => simp [tailOf]
  | cons l ls ih =>
    rw [List.map_cons, tailOf_cons]
    have h1 : ((l :: ls).filterMap TextLine.groups).length ≤
        (ls.filterMap TextLine.groups).length + 1 := by
      cases l <;> simp [List.filterMap_cons, TextLine.groups]
    simp only [List.length_cons, List.length_append]
    omega

/-- After a match that ended at the end of a line, the search delivers the
submatches of the summary lines that follow, in order. -/
theorem allMatches_after_line (k : Nat) :
    ∀ (ls : List TextLine), ls.length ≤ k → (∀ l ∈ ls, l.ok) →
    ∀ (n : Nat) (pe : Option Nat), (ls.filterMap TextLine.groups).length < n →
      allMatches benchLine benchLineGroups n ⟨some 'p', tailOf (ls.map TextLine.text)⟩ pe =
        ls.filterMap TextLine.groups := by
  induction k with
  | zero =>
    intro ls hk _ n pe _
    have : ls = [] := List.length_eq_zero.1 (Nat.le_zero.1 hk)
    subst this
    exact allMatches_of_none _ _ _ _ _ (doExecute_tailOf [] (by simp))
  | succ k ih =>
    intro ls hk hok n pe hn
    rcases textLines_split ls hok with ⟨others, ho, hm, hf⟩ |
      ⟨others, L, rest, ho, hL, hr, hlen, hm, hf⟩
    · rw [hm, hf]
      exact allMatches_of_none _ _ _ _ _ (doExecute_tailOf others ho)
    · obtain ⟨pre, q, hpre, hex⟩ :=
        doExecute_joinLines others (rest.map TextLine.text) L hL ho (some '\n') (Or.inr rfl)
      have htail : tailOf (ls.map TextLine.text) =
          '\n' :: joinLines (others ++ L.text :: rest.map TextLine.text) := by
        rw [hm]
        cases others <;> rfl
      have hskip := doExecute_skip_line []
        (joinLines (others ++ L.text :: rest.map TextLine.text)) (some 'p') (by simp)
        (Or.inl (by decide))
      simp only [List.nil_append] at hskip
      cases n with
      | zero => exact absurd hn (Nat.not_lt_zero _)
      | succ n =>
        rw [hf] at hn ⊢
        simp only [List.length_cons, Nat.add_lt_add_iff_right] at hn
        rw [allMatches]
        simp only [htail, hskip, hex]
        have hne : (tailOf (rest.map TextLine.text)).length ≠
            ('\n' :: joinLines (others ++ L.text :: rest.map TextLine.text)).length := by
          rw [hpre]
          have := L.text_length_pos
          simp only [List.length_cons, List.length_append]
          omega
        rw [if_neg hne, ih rest (by omega) hr n _ hn]

/-- On a text made of well-formed lines, `FindAllStringSubmatch` delivers the
submatches of the summary lines, in order. -/
theorem findAll_textLines (ls : List TextLine) (hok : ∀ l ∈ ls, l.ok) :
    FindAllStringSubmatch benchLine benchLineGroups (joinLines (ls.map TextLine.text)) =
      ls.filterMap TextLine.groups := by
  unfold FindAllStringSubmatch
  rcases textLines_split ls hok with ⟨others, ho, hm, hf⟩ |
    ⟨others, L, rest, ho, hL, hr, hlen, hm, hf⟩
  · rw [hm, hf]
    exact allMatches_of_none _ _ _ _ _ (doExecute_other_lines others ho none)
  · obtain ⟨pre, q, hpre, hex⟩ :=
      doExecute_joinLines others (rest.map TextLine.text) L hL ho none (Or.inl rfl)
    rw [hm, hf, allMatches]
    simp only [hex]
    have hne : (tailOf (rest.map TextLine.text)).length ≠
        (joinLines (others ++ L.text :: rest.map TextLine.text)).length := by
      rw [hpre]
      have := L.text_length_pos
      simp only [List.length_append]
      omega
    rw [if_neg hne]
    congr 1
    apply allMatches_after_line rest.length rest (le_refl _) hr
    have h1 := groups_length_le rest
    rw [hpre]
    have := L.text_length_pos
    simp only [List.length_append]
    omega

theorem sscanfFloat_nil : sscanfFloat [] = 0 := by
  simp [sscanfFloat, floatToken, parseFloat, takeSign]

/-- Whatever the text, `parseBench` returns the figures of the last match of
`benchLine`, and all-zero stats when there is no match. -/
theorem parseBench_last_match (output : String) :
    parseBench output =
      match (FindAllStringSubmatch benchLine benchLineGroups output.toList).getLast? with
      | none => {}
      | some m =>
        { NsPerOp := sscanfFloat (m.getD 1 []),
          BytesPerOp := if m.length > 2 then sscanfFloat (m.getD 2 []) else 0,
          AllocsPerOp := if m.length > 3 then sscanfFloat (m.getD 3 []) else 0 } := by
  unfold parseBench
  cases h : FindAllStringSubmatch benchLine benchLineGroups output.toList with
  | nil => simp
  | cons a l =>
    have hne : a :: l ≠ [] := by simp
    simp only [List.length_cons, Nat.add_one_ne_zero, if_false]
    rw [List.getLast?_eq_getLast _ hne]
    simp only
    rw [List.getLastD_eq_getLast?, List.getLast?_eq_getLast _ hne]
    simp

/-- A group that the last match leaves unset is read as 0: `Sscanf` fails on
the empty submatch and the variable keeps its zero value. -/
theorem parseBench_unset_groups (output : String) (ms : List (List (List Char)))
    (m : List (List Char))
    (h : FindAllStringSubmatch benchLine benchLineGroups output.toList = ms ++ [m]) :
    (parseBench output).NsPerOp = sscanfFloat (m.getD 1 []) ∧
    (m.getD 2 [] = [] → (parseBench output).BytesPerOp = 0) ∧
    (m.getD 3 [] = [] → (parseBench output).AllocsPerOp = 0) := by
  rw [parseBench_last_match, h]
  have hl : (ms ++ [m]).getLast? = some m := by simp
  rw [hl]
  refine ⟨rfl, ?_, ?_⟩
  · intro h2
    simp only [h2, sscanfFloat_nil]
    split <;> rfl
  · intro h3
    simp only [h3, sscanfFloat_nil]
    split <;> rfl

set_option maxRecDepth 100000 in
theorem mixedLines_matches :
    FindAllStringSubmatch benchLine benchLineGroups mixedLinesText.toList =
      [["BenchmarkVideoLightningDetectorFromEnvArgs-8 1 100 ns/op 10 B/op 1 allocs/op".toList,
          "100".toList, "10".toList, "1".toList],
       ["BenchmarkVideoLightningDetectorFromEnvArgs-8 1 200 ns/op 20 B/op\n3 allocs/op".toList,
          "200".toList, "20".toList, "3".toList]] := by
  decide

set_option maxRecDepth 100000 in
theorem bareLine_matches :
    FindAllStringSubmatch benchLine benchLineGroups bareLineText.toList =
      [["BenchmarkVideoLightningDetectorFromEnvArgs-8 1 250 ns/op\n64 B/op 3 allocs/op".toList,
          "250".toList, "64".toList, "3".toList]] := by
  decide

theorem exampleLine_ok : exampleLine.ok := by
  unfold SummaryLine.ok isBlanks isFigure exampleLine
  decide

theorem exampleLine_figures :
    sscanfFloat exampleLine.f1 = 123 ∧ sscanfFloat exampleLine.f2 = 45 ∧
      sscanfFloat exampleLine.f3 = 2 := by
  simp [exampleLine, sscanfFloat, floatToken, parseFloat, takeSign, isDigitRe, natOfDigits,
    float64Overflow]
  norm_num

theorem splitLines_append_newline (l rest : List Char) (h : '\n' ∉ l) :
    splitLines (l ++ '\n' :: rest) = l :: splitLines rest := by
  induction l with
  | nil => simp [splitLines]
  | cons c l ih =>
    have hc : c ≠ '\n' := fun e => h (by simp [e])
    have hl : '\n' ∉ l := fun hm => h (List.mem_cons_of_mem _ hm)
    have := ih hl
    show splitLines (c :: (l ++ '\n' :: rest)) = _
    rw [splitLines, if_neg hc, this]

theorem splitLines_single (l : List Char) (h : '\n' ∉ l) : splitLines l = [l] := by
  induction l with
  | nil => rfl
  | cons c l ih =>
    have hc : c ≠ '\n' := fun e => h (by simp [e])
    have hl : '\n' ∉ l := fun hm => h (List.mem_cons_of_mem _ hm)
    simp only [splitLines, hc, if_false, ih hl]

theorem splitLines_joinLines (xs : List (List Char)) (hne : xs ≠ [])
    (h : ∀ x ∈ xs, '\n' ∉ x) : splitLines (joinLines xs) = xs := by
  induction xs with
  | nil => exact absurd rfl hne
  | cons x xs ih =>
    have hx := h x (List.mem_cons_self _ _)
    cases xs with
    | nil => exact splitLines_single x hx
    | cons y ys =>
      rw [joinLines_cons _ _ (by simp), splitLines_append_newline _ _ hx,
        ih (by simp) (fun z hz => h z (List.mem_cons_of_mem _ hz))]

theorem isBlanks.no_newline {ws : List Char} (h : isBlanks ws) : '\n' ∉ ws :=
  fun hm => (h.2 _ hm).2 rfl

theorem SummaryLine.text_no_newline (L : SummaryLine) (hL : L.ok) : '\n' ∉ L.text := by
  obtain ⟨hsfx, h1, hcnt, h2, hf1, h3, h4, hf2, h5, h6, hf3, h7⟩ := hL
  have hs : '\n' ∉ L.sfx := fun hm => by
    have := hsfx _ hm
    revert this; decide
  have hc : '\n' ∉ L.cnt := fun hm => by
    have := hcnt.2 _ hm
    revert this; decide
  have hg1 : '\n' ∉ L.f1 := fun hm => by
    have := hf1.2 _ hm
    revert this; decide
  have hg2 : '\n' ∉ L.f2 := fun hm => by
    have := hf2.2 _ hm
    revert this; decide
  have hg3 : '\n' ∉ L.f3 := fun hm => by
    have := hf3.2 _ hm
    revert this; decide
  have hn : '\n' ∉ benchName := by decide
  have hu1 : '\n' ∉ "ns/op".toList := by decide
  have hu2 : '\n' ∉ "B/op".toList := by decide
  have hu3 : '\n' ∉ "allocs/op".toList := by decide
  simp only [SummaryLine.text, List.mem_append, not_or]
  exact ⟨hn, hs, h1.no_newline, hc, h2.no_newline, hg1, h3.no_newline, hu1, h4.no_newline,
    hg2, h5.no_newline, hu2, h6.no_newline, hg3, h7.no_newline, hu3⟩

theorem TextLine.line_no_newline (l : TextLine) (h : l.ok) : '\n' ∉ l.text := by
  cases l with
  | other o => exact h.1
  | summary L => exact L.text_no_newline h

theorem matchLine_textLine (l : TextLine) (h : l.ok) : matchLine l.text = l.groups := by
  cases l with
  | other o =>
    have : execAt benchLine benchLineGroups ⟨none, o⟩ = none :=
      execAt_benchLine_none _ _ (Or.inr h.2)
    simp [matchLine, TextLine.text, TextLine.groups, this]
  | summary L =>
    have := execAt_summaryLine L h none [] (Or.inl rfl) (Or.inl rfl)
    rw [List.append_nil] at this
    simp [matchLine, TextLine.text, TextLine.groups, this]

theorem matchLine_nil : matchLine [] = none := by decide

theorem filterMap_matchLine (ls : List TextLine) (hok : ∀ l ∈ ls, l.ok) :
    (ls.map TextLine.text).filterMap matchLine = ls.filterMap TextLine.groups := by
  induction ls with
  | nil => rfl
  | cons l ls ih =>
    have hl := hok l (List.mem_cons_self _ _)
    simp only [List.map_cons, List.filterMap_cons, matchLine_textLine l hl,
      ih (fun x hx => hok x (List.mem_cons_of_mem _ hx))]

theorem lastMatchingLine_textLines (ls : List TextLine) (hok : ∀ l ∈ ls, l.ok) :
    lastMatchingLine (String.mk (joinLines (ls.map TextLine.text))) =
      (ls.filterMap TextLine.groups).getLast? := by
  unfold lastMatchingLine
  show ((splitLines (joinLines (ls.map TextLine.text))).filterMap matchLine).getLast? = _
  cases ls with
  | nil => simp [joinLines, splitLines, matchLine_nil]
  | cons l ls =>
    rw [splitLines_joinLines _ (by simp), filterMap_matchLine _ hok]
    intro x hx
    obtain ⟨t, ht, rfl⟩ := List.mem_map.1 hx
    exact t.line_no_newline (hok t ht)

theorem groups_mem_shape (ls : List TextLine) (m : List (List Char))
    (h : m ∈ ls.filterMap TextLine.groups) :
    ∃ L : SummaryLine, m = [L.text, L.f1, L.f2, L.f3] := by
  obtain ⟨l, _, hl⟩ := List.mem_filterMap.1 h
  cases l with
  | other o => simp [TextLine.groups] at hl
  | summary L => exact ⟨L, by simpa [TextLine.groups] using hl.symm⟩

/-- On a text whose lines are summary lines with three figures and lines that
do not begin with the benchmark name, `parseBench` returns the figures of the
last matching line (all-zero stats when no line matches). -/
theorem parseBench_eq_lastMatchingLine (ls : List TextLine) (hok : ∀ l ∈ ls, l.ok) :
    parseBench (String.mk (joinLines (ls.map TextLine.text))) =
      match lastMatchingLine (String.mk (joinLines (ls.map TextLine.text))) with
      | none => {}
      | some g => statsOfGroups g := by
  have hfind : FindAllStringSubmatch benchLine benchLineGroups
      (String.mk (joinLines (ls.map TextLine.text))).toList =
      ls.filterMap TextLine.groups := findAll_textLines ls hok
  rw [parseBench_last_match, hfind, lastMatchingLine_textLines ls hok]
  cases hlast : (ls.filterMap TextLine.groups).getLast? with
  | none => rfl
  | some m =>
    obtain ⟨L, rfl⟩ := groups_mem_shape ls m (List.mem_of_getLast?_eq_some hlast)
    simp [statsOfGroups]

theorem hasArg_iff (args : List String) (key : String) : hasArg args key = true ↔ key ∈ args := by
  induction args with
  | nil => simp [hasArg]
  | cons a rest ih =>
    by_cases h : a = key
    · simp [hasArg, h]
    · have h' : ¬ key = a := fun e => h e.symm
      simp [hasArg, h, h', ih]

theorem hasArg_false_iff (args : List String) (key : String) :
    hasArg args key = false ↔ key ∉ args := by
  rw [← hasArg_iff]; simp

theorem augmentArgs_list (p : List String) :
    ∃ extra, augmentArgs p = p ++ extra ∧ extra.Sublist ["--export-timings", "-v", "-f"] ∧
      ("--export-timings" ∈ extra ↔ "--export-timings" ∉ p) ∧
      ("-v" ∈ extra ↔ "-v" ∉ p ∧ "--verbose" ∉ p) ∧
      ("-f" ∈ extra ↔ "-f" ∉ p ∧ "--skip-frames-export" ∉ p) := by
  refine ⟨(if "--export-timings" ∈ p then [] else ["--export-timings"]) ++
    ((if "-v" ∈ p ∨ "--verbose" ∈ p then [] else ["-v"]) ++
      (if "-f" ∈ p ∨ "--skip-frames-export" ∈ p then [] else ["-f"])), ?_, ?_, ?_, ?_, ?_⟩ <;>
  by_cases h1 : "--export-timings" ∈ p <;> by_cases h2 : "-v" ∈ p <;>
    by_cases h2' : "--verbose" ∈ p <;> by_cases h3 : "-f" ∈ p <;>
    by_cases h3' : "--skip-frames-export" ∈ p <;>
    simp [augmentArgs, hasArg_false_iff, h1, h2, h2', h3, h3']

theorem augmentArgs_idem (p : List String) : augmentArgs (augmentArgs p) = augmentArgs p := by
  by_cases h1 : "--export-timings" ∈ p <;> by_cases h2 : "-v" ∈ p <;>
    by_cases h2' : "--verbose" ∈ p <;> by_cases h3 : "-f" ∈ p <;>
    by_cases h3' : "--skip-frames-export" ∈ p <;>
    simp [augmentArgs, hasArg_false_iff, h1, h2, h2', h3, h3']

theorem flush_args_ne (st : argState) (h : ∀ a ∈ st.args, a ≠ "") :
    ∀ a ∈ (flush st).args, a ≠ "" := by
  unfold flush
  split
  · rename_i hb
    intro a ha
    simp only [List.mem_append, List.mem_singleton] at ha
    rcases ha with ha | ha
    · exact h a ha
    · subst ha
      intro he
      have : st.buf = [] := by
        have := congrArg String.data he
        simpa using this
      simp [this] at hb
  · exact h

theorem parseArgsStep_args_ne (st : argState) (r : Char) (h : ∀ a ∈ st.args, a ≠ "") :
    ∀ a ∈ (parseArgsStep st r).args, a ≠ "" := by
  unfold parseArgsStep
  split_ifs <;> first | exact h | exact flush_args_ne st h

theorem foldl_parseArgsStep_args_ne (cs : List Char) (st : argState)
    (h : ∀ a ∈ st.args, a ≠ "") :
    ∀ a ∈ (cs.foldl parseArgsStep st).args, a ≠ "" := by
  induction cs generalizing st with
  | nil => exact h
  | cons c cs ih => exact ih _ (parseArgsStep_args_ne st c h)

theorem parseArgs_ne_empty (s : String) : ∀ a ∈ parseArgs s, a ≠ "" := by
  unfold parseArgs
  apply flush_args_ne
  apply foldl_parseArgsStep_args_ne
  simp

theorem augmentArgs_ne_empty (p : List String) (h : ∀ a ∈ p, a ≠ "") :
    ∀ a ∈ augmentArgs p, a ≠ "" := by
  obtain ⟨extra, he, hsub, -⟩ := augmentArgs_list p
  intro a ha
  rw [he, List.mem_append] at ha
  rcases ha with ha | ha
  · exact h a ha
  · have := hsub.subset ha
    simp at this
    rcases this with rfl | rfl | rfl <;> decide

theorem findOutputDir_first (pre post : List String) (x y : String)
    (hx : isOutFlag x) (hpre : ∀ z ∈ pre, ¬ isOutFlag z) :
    findOutputDir (pre ++ x :: y :: post) = y := by
  induction pre with
  | nil =>
    have hx' : x = "-o" ∨ x = "--output-directory-path" := hx
    simp [findOutputDir, hx']
  | cons z pre ih =>
    have hz : ¬ (z = "-o" ∨ z = "--output-directory-path") := hpre z (List.mem_cons_self _ _)
    simp only [List.cons_append, findOutputDir, hz, if_false]
    exact ih (fun w hw => hpre w (List.mem_cons_of_mem _ hw))

theorem first_outFlag (a : List String)
    (h : ∃ pre x y post, a = pre ++ x :: y :: post ∧ isOutFlag x) :
    ∃ pre x y post, a = pre ++ x :: y :: post ∧ isOutFlag x ∧ ∀ z ∈ pre, ¬ isOutFlag z := by
  obtain ⟨pre, x, y, post, ha, hx⟩ := h
  induction pre generalizing a with
  | nil => exact ⟨[], x, y, post, ha, hx, by simp⟩
  | cons z pre ih =>
    by_cases hz : isOutFlag z
    · subst ha
      cases pre with
      | nil => exact ⟨[], z, x, y :: post, rfl, hz, by simp⟩
      | cons w pre' => exact ⟨[], z, w, pre' ++ x :: y :: post, rfl, hz, by simp⟩
    · obtain ⟨pre', x', y', post', ha', hx', hpre'⟩ := ih (pre ++ x :: y :: post) rfl
      refine ⟨z :: pre', x', y', post', ?_, hx', ?_⟩
      · rw [ha, List.cons_append, ha', List.cons_append]
      · intro w hw
        rcases List.mem_cons.1 hw with rfl | hw
        · exact hz
        · exact hpre' w hw

theorem findOutputDir_ne_empty (a : List String) (h : findOutputDir a ≠ "") :
    ∃ pre x y post, a = pre ++ x :: y :: post ∧ isOutFlag x := by
  induction a with
  | nil => simp [findOutputDir] at h
  | cons x rest ih =>
    by_cases hx : x = "-o" ∨ x = "--output-directory-path"
    · cases rest with
      | nil => simp [findOutputDir, hx] at h
      | cons y post => exact ⟨[], x, y, post, rfl, hx⟩
    · simp only [findOutputDir, hx, if_false] at h
      obtain ⟨pre, x', y, post, ha, hx'⟩ := ih h
      exact ⟨x :: pre, x', y, post, by rw [ha, List.cons_append], hx'⟩

theorem decode_encodeBench (b cur : benchStats) :
    decodeStruct benchFields (encodeBench b) cur = Except.ok b := by
  simp [decodeStruct, encodeBench, decodeMembers, benchFields, findField, intoField, decodeFloat]

theorem decode_encodeMetadata (m : runMetadata) :
    decodeStruct metadataFields (encodeMetadata m) {} = Except.ok m := by
  by_cases h : m.Ffmpeg = ""
  · cases m
    simp only at h
    subst h
    simp [decodeStruct, encodeMetadata, omitEmpty, decodeMembers, metadataFields, findField,
      intoField, decodeString]
  · simp [decodeStruct, encodeMetadata, omitEmpty, h, decodeMembers, metadataFields, findField,
      intoField, decodeString]

theorem mapStore_append (acc : List (String × ℚ)) (k : String) (v : ℚ)
    (h : k ∉ acc.map Prod.fst) : mapStore acc k v = acc ++ [(k, v)] := by
  induction acc with
  | nil => rfl
  | cons a acc ih =>
    obtain ⟨k', v'⟩ := a
    simp only [List.map_cons, List.mem_cons, not_or] at h
    have hk : ¬ k' = k := fun e => h.1 e.symm
    simp [mapStore, hk, ih h.2]

theorem decodeStageEntries_encode (l acc : List (String × ℚ))
    (hl : (l.map Prod.fst).Nodup) (hd : ∀ k ∈ l.map Prod.fst, k ∉ acc.map Prod.fst) :
    decodeStageEntries (l.map (fun kv => (kv.1, Json.num kv.2))) acc = Except.ok (acc ++ l) := by
  induction l generalizing acc with
  | nil => simp [decodeStageEntries]
  | cons a l ih =>
    obtain ⟨k, v⟩ := a
    simp only [List.map_cons, List.nodup_cons] at hl
    have hk : k ∉ acc.map Prod.fst := hd k (by simp)
    simp only [List.map_cons, decodeStageEntries, decodeFloat, mapStore_append acc k v hk]
    rw [ih _ hl.2]
    · simp
    · intro k' hk' hmem
      simp only [List.map_append, List.map_cons, List.map_nil, List.mem_append,
        List.mem_singleton] at hmem
      rcases hmem with hmem | hmem
      · exact hd k' (by simp at hk' ⊢; exact Or.inr hk') hmem
      · subst hmem
        exact hl.1 hk'

theorem decode_encodeStages (s : Option (List (String × ℚ))) (h : distinctKeys s) :
    ∃ s', decodeStages (encodeStages s) none = Except.ok s' ∧ sameStages s' s := by
  cases s with
  | none => exact ⟨none, rfl, trivial⟩
  | some kvs =>
    have hperm := List.perm_insertionSort (fun a b : String × ℚ => lexLE a.1.toList b.1.toList = true) kvs
    have hnd : ((kvs.insertionSort (fun a b => lexLE a.1.toList b.1.toList = true)).map Prod.fst).Nodup :=
      (hperm.map Prod.fst).nodup_iff.2 h
    refine ⟨some (kvs.insertionSort (fun a b => lexLE a.1.toList b.1.toList = true)), ?_, hperm⟩
    simp only [encodeStages, decodeStages, Option.getD_none]
    rw [decodeStageEntries_encode _ _ hnd (by simp)]
    simp

theorem decode_encodeTimings (t : timingsReport) (h : distinctKeys t.Stages) :
    ∃ t', decodeStruct timingsFields (encodeTimings t) {} = Except.ok t' ∧
      t'.TotalMs = t.TotalMs ∧ sameStages t'.Stages t.Stages := by
  obtain ⟨s', hs', hsame⟩ := decode_encodeStages t.Stages h
  refine ⟨⟨t.TotalMs, s'⟩, ?_, rfl, hsame⟩
  simp [decodeStruct, encodeTimings, decodeMembers, timingsFields, findField, intoField,
    decodeFloat, hs']

theorem decodeInt_cast (d cur : Int) : decodeInt (Json.num (d : ℚ)) cur = Except.ok d := by
  simp [decodeInt]

theorem decodeStruct_obj {α : Type} (fields : List (String × (Json → α → Except String α)))
    (kvs : List (String × Json)) (cur : α) :
    decodeStruct fields (Json.obj kvs) cur = decodeMembers fields kvs cur := rfl

theorem decode_encodeRunResult (r : runResult) (h : distinctKeys r.Timings.Stages) :
    ∃ r', decodeStruct runResultFields (encodeRunResult r) {} = Except.ok r' ∧
      r'.Metadata = r.Metadata ∧ r'.Timings.TotalMs = r.Timings.TotalMs ∧
      sameStages r'.Timings.Stages r.Timings.Stages ∧ r'.Bench = r.Bench ∧
      r'.Detections = r.Detections ∧ r'.Notes = r.Notes := by
  obtain ⟨t', ht', htot, hsame⟩ := decode_encodeTimings r.Timings h
  refine ⟨⟨r.Metadata, t', r.Bench, r.Detections, r.Notes⟩, ?_, rfl, htot, hsame, rfl, rfl, rfl⟩
  by_cases hn : r.Notes = ""
  · have hm := decode_encodeMetadata r.Metadata
    simp only [encodeRunResult, decodeStruct_obj]
    simp [omitEmpty, hn, decodeMembers, runResultFields, findField,
      intoField, hm, decode_encodeBench, decodeInt_cast, ht']
  · have hm := decode_encodeMetadata r.Metadata
    simp only [encodeRunResult, decodeStruct_obj]
    simp [omitEmpty, hn, decodeMembers, runResultFields, findField,
      intoField, hm, decode_encodeBench, decodeInt_cast, ht', decodeString]

theorem append_ne_empty_right (a b : String) (h : b ≠ "") : a ++ b ≠ "" := by
  intro he
  have hd := congrArg String.data he
  rw [String.data_append] at hd
  have hb : b.data = [] := (List.append_eq_nil.1 hd).2
  exact h (String.ext hb)

theorem append_ne_empty_left (a b : String) (h : a ≠ "") : a ++ b ≠ "" := by
  intro he
  have hd := congrArg String.data he
  rw [String.data_append] at hd
  have ha : a.data = [] := (List.append_eq_nil.1 hd).1
  exact h (String.ext ha)

theorem filepathJoin_nested (suite x : String) (hx : x ≠ "") :
    filepathJoin [filepathJoin ["perf-results", suite], x] =
      filepathJoin ["perf-results", suite, x] := by
  have hp : ("perf-results" : String) ≠ "" := by decide
  by_cases hs : suite = ""
  · subst hs
    simp [filepathJoin, joinSlash, hx]
  · have h1 : ("perf-results/" : String) ++ suite ≠ "" := append_ne_empty_right _ _ hs
    simp [filepathJoin, joinSlash, hx, hs, h1, String.append_assoc]

theorem writeFile_same (fs : FileSystem) (p : String) (d : FileData) :
    writeFile fs p d p = some d := by
  simp [writeFile]

theorem sampleRun_distinctKeys : distinctKeys sampleRun.Timings.Stages := by
  simp [distinctKeys, sampleRun]

theorem mapIndex_missing (kvs : List (String × ℚ)) (k : String) (h : ∀ v, (k, v) ∉ kvs) :
    mapIndex kvs k = 0 := by
  induction kvs with
  | nil => rfl
  | cons a kvs ih =>
    obtain ⟨k', v'⟩ := a
    have hk : ¬ k' = k := by
      intro e
      exact h v' (by simp [e])
    simp only [mapIndex, hk, if_false]
    exact ih (fun v hv => h v (List.mem_cons_of_mem _ hv))

theorem stageValue_missing (t : timingsReport) (k : String) (h : stageMissing t k) :
    stageValue t.Stages k = 0 := by
  unfold stageMissing at h
  unfold stageValue
  cases hs : t.Stages with
  | none => rfl
  | some kvs =>
    rw [hs] at h
    exact mapIndex_missing kvs k h

theorem decode_sampleTimings :
    decodeStruct timingsFields sampleTimings {} =
      Except.ok { TotalMs := 25 / 2, Stages := some [("video_analysis", 7)] } := by
  simp [sampleTimings, decodeStruct_obj, decodeMembers, timingsFields, findField, intoField,
    decodeFloat, decodeStages, decodeStageEntries, mapStore]

theorem countDetections_nonneg (r : String) : 0 ≤ countDetections r := by
  unfold countDetections
  exact Int.natCast_nonneg _

theorem full_suite_no_output_dir :
    findOutputDir (augmentArgs (parseArgs "-i sample.mp4 -a -s 0.4")) = "" := by decide

theorem runOnce_ok (env : Env) (cliArgs : String) (opts : runOpts)
    (outDir : String) (j : Json) (tr : timingsReport)
    (hpipe : (env.detector (augmentArgs (parseArgs cliArgs))).pipeOk = true)
    (hstart : (env.detector (augmentArgs (parseArgs cliArgs))).startOk = true)
    (hwait : (env.detector (augmentArgs (parseArgs cliArgs))).waitOk = true)
    (hdir : findOutputDir (augmentArgs (parseArgs cliArgs)) = outDir) (hne : outDir ≠ "")
    (hfile : (env.detector (augmentArgs (parseArgs cliArgs))).files
      (filepathJoin [outDir, "timings.json"]) = some (some j))
    (hdec : decodeStruct timingsFields j {} = Except.ok tr) :
    runOnceForTimingsAndDetections env cliArgs opts =
      Except.ok (tr, countDetections (env.detector (augmentArgs (parseArgs cliArgs))).stdout) := by
  simp only [runOnceForTimingsAndDetections, determineOutputDir, hpipe, hstart, hwait, hdir,
    hne, hfile, hdec, Bool.not_true, if_false]
  simp

theorem runOnce_full_fatal (env : Env) (opts : runOpts)
    (hpipe : (env.detector (augmentArgs (parseArgs "-i sample.mp4 -a -s 0.4"))).pipeOk = true)
    (hstart : (env.detector (augmentArgs (parseArgs "-i sample.mp4 -a -s 0.4"))).startOk = true)
    (hwait : (env.detector (augmentArgs (parseArgs "-i sample.mp4 -a -s 0.4"))).waitOk = true) :
    runOnceForTimingsAndDetections env "-i sample.mp4 -a -s 0.4" opts =
      Except.error "could not determine output directory from CLI args" := by
  simp only [runOnceForTimingsAndDetections, determineOutputDir, hpipe, hstart, hwait,
    full_suite_no_output_dir, Bool.not_true, if_false]
  simp

theorem containsSub_iff (l s : List Char) : containsSub l s = true ↔ s <:+: l := by
  induction l with
  | nil => simp [containsSub, List.infix_nil, List.isEmpty_iff]
  | cons c cs ih =>
    simp only [containsSub, Bool.or_eq_true, List.isPrefixOf_iff_prefix, ih]
    exact List.infix_cons_iff.symm

theorem hasSentinel_eq (l : List Char) : hasSentinel l = containsSub l sentinel.toList := by
  unfold hasSentinel
  rw [Bool.eq_iff_iff, containsSub_iff]
  simp

theorem splitLines_ne_nil (s : List Char) : splitLines s ≠ [] := by
  cases s with
  | nil => simp [splitLines]
  | cons c cs =>
    simp only [splitLines]
    split
    · simp
    · split <;> simp

theorem dropLastEmpty_cons (l : List Char) (ls : List (List Char)) (h : ls ≠ []) :
    dropLastEmpty (l :: ls) = l :: dropLastEmpty ls := by
  cases ls with
  | nil => exact absurd rfl h
  | cons l' ls => rfl

theorem cutLines_eq (s cur : List Char) :
    cutLines s cur = dropLastEmpty (onFirstLine cur (splitLines s)) := by
  induction s generalizing cur with
  | nil => simp [cutLines, splitLines, onFirstLine, dropLastEmpty]
  | cons c cs ih =>
    by_cases hc : c = '\n'
    · subst hc
      have h0 := ih []
      have hne := splitLines_ne_nil cs
      cases hs : splitLines cs with
      | nil => exact absurd hs hne
      | cons l0 ls =>
        rw [hs] at h0
        simp only [onFirstLine, List.nil_append] at h0
        simp only [cutLines, splitLines, if_true, onFirstLine, List.append_nil, hs]
        rw [dropLastEmpty_cons _ _ (by simp), h0]
    · have hne := splitLines_ne_nil cs
      cases hs : splitLines cs with
      | nil => exact absurd hs hne
      | cons l0 ls =>
        have h1 := ih (cur ++ [c])
        rw [hs] at h1
        simp only [cutLines, splitLines, hc, if_false, hs, onFirstLine]
        rw [h1]
        simp [onFirstLine]

theorem sentinel_not_suffix_cr (l : List Char) : ¬ sentinel.toList <:+ l ++ ['\r'] := by
  rintro ⟨pre, hpre⟩
  have h := congrArg List.getLast? hpre
  have hs : sentinel.toList = "Frame meets the threshold requirements".toList ++ ['.'] := by
    decide
  rw [hs, ← List.append_assoc] at h
  simp at h

theorem hasSentinel_dropCR (l : List Char) : hasSentinel (dropCR l) = hasSentinel l := by
  unfold dropCR
  split
  · rename_i h
    obtain ⟨ys, rfl⟩ := List.getLast?_eq_some_iff.1 h
    rw [List.dropLast_concat]
    unfold hasSentinel
    rw [Bool.eq_iff_iff]
    simp only [decide_eq_true_eq]
    rw [List.infix_concat_iff]
    constructor
    · exact fun h => Or.inr h
    · rintro (h | h)
      · exact absurd h (sentinel_not_suffix_cr ys)
      · exact h
  · rfl

theorem hasSentinel_nil : hasSentinel [] = false := by decide

theorem scanTokens_short (ls : List (List Char)) (h : ∀ l ∈ ls, utf8Len l < MaxScanTokenSize) :
    scanTokens ls = ls.map dropCR := by
  induction ls with
  | nil => rfl
  | cons l ls ih =>
    have hl := h l (List.mem_cons_self _ _)
    have : ¬ utf8Len l ≥ MaxScanTokenSize := Nat.not_le.2 hl
    simp only [scanTokens, this, if_false, List.map_cons,
      ih (fun x hx => h x (List.mem_cons_of_mem _ hx))]

theorem dropLastEmpty_subset (ls : List (List Char)) : ∀ l ∈ dropLastEmpty ls, l ∈ ls := by
  induction ls with
  | nil => simp [dropLastEmpty]
  | cons l ls ih =>
    cases ls with
    | nil =>
      intro x hx
      simp only [dropLastEmpty] at hx
      split at hx <;> simp_all
    | cons l' ls' =>
      intro x hx
      simp only [dropLastEmpty, List.mem_cons] at hx
      rcases hx with rfl | hx
      · simp
      · exact List.mem_cons_of_mem _ (ih x (by simpa [dropLastEmpty] using hx))

theorem filter_dropLastEmpty (ls : List (List Char)) :
    ((dropLastEmpty ls).filter hasSentinel).length = (ls.filter hasSentinel).length := by
  induction ls with
  | nil => rfl
  | cons l ls ih =>
    cases ls with
    | nil =>
      simp only [dropLastEmpty]
      split
      · rename_i h
        subst h
        simp [hasSentinel_nil]
      · rfl
    | cons l' ls' =>
      rw [dropLastEmpty_cons _ _ (by simp), List.filter_cons, List.filter_cons]
      split <;> simp [ih]

theorem filter_map_dropCR (ls : List (List Char)) :
    ((ls.map dropCR).filter hasSentinel).length = (ls.filter hasSentinel).length := by
  induction ls with
  | nil => rfl
  | cons l ls ih =>
    simp only [List.map_cons, List.filter_cons, hasSentinel_dropCR]
    split <;> simp [ih]

/-- On a stream whose lines are all shorter than the scanner's buffer,
`countDetections` is the number of lines that contain the sentinel. -/
theorem countDetections_short_lines (r : String)
    (h : ∀ l ∈ splitLines r.toList, utf8Len l < MaxScanTokenSize) :
    countDetections r = sentinelLineCount r := by
  unfold countDetections sentinelLineCount
  have hf : (fun line => containsSub line sentinel.toList) = hasSentinel := by
    funext l
    exact (hasSentinel_eq l).symm
  rw [hf, cutLines_eq]
  have hon : onFirstLine [] (splitLines r.toList) = splitLines r.toList := by
    cases splitLines r.toList <;> simp [onFirstLine]
  rw [hon, scanTokens_short _ (fun l hl => h l (dropLastEmpty_subset _ l hl)),
    filter_map_dropCR, filter_dropLastEmpty]

theorem utf8Len_replicate_a (n : Nat) : utf8Len (List.replicate n 'a') = n := by
  have h : ('a').utf8Size = 1 := by decide
  simp [utf8Len, List.map_replicate, List.sum_replicate, h]

/-- A first line that fills the scanner's buffer ends the scan: nothing is counted. -/
theorem countDetections_long_first_line (l rest : List Char) (hnl : '\n' ∉ l)
    (hlong : utf8Len l ≥ MaxScanTokenSize) :
    countDetections (String.mk (l ++ '\n' :: rest)) = 0 := by
  unfold countDetections
  show (((scanTokens (cutLines (l ++ '\n' :: rest) [])).filter _).length : Int) = 0
  rw [cutLines_eq, splitLines_append_newline _ _ hnl]
  simp only [onFirstLine, List.nil_append]
  rw [dropLastEmpty_cons _ _ (splitLines_ne_nil rest)]
  simp [scanTokens, hlong]

theorem foldl_step_inDouble (l : List Char) (args : List String) (buf : List Char)
    (h : ∀ c ∈ l, isQuoteRune c = false) :
    l.foldl parseArgsStep ⟨args, buf, false, true⟩ = ⟨args, buf ++ l, false, true⟩ := by
  induction l generalizing buf with
  | nil => simp
  | cons c l ih =>
    have hc := h c (List.mem_cons_self _ _)
    simp only [isQuoteRune, Bool.or_eq_false_iff, beq_eq_false_iff_ne, ne_eq] at hc
    have hstep : parseArgsStep ⟨args, buf, false, true⟩ c = ⟨args, buf ++ [c], false, true⟩ := by
      simp only [parseArgsStep, hc.1, hc.2, if_false]
      split <;> simp
    rw [List.foldl_cons, hstep, ih _ (fun x hx => h x (List.mem_cons_of_mem _ hx))]
    simp

theorem foldl_step_plain (l : List Char) (args : List String) (buf : List Char)
    (h : ∀ c ∈ l, isQuoteRune c = false) (hs : ∀ c ∈ l, isSplitRune c = false) :
    l.foldl parseArgsStep ⟨args, buf, false, false⟩ = ⟨args, buf ++ l, false, false⟩ := by
  induction l generalizing buf with
  | nil => simp
  | cons c l ih =>
    have hc := h c (List.mem_cons_self _ _)
    have hw := hs c (List.mem_cons_self _ _)
    simp only [isQuoteRune, Bool.or_eq_false_iff, beq_eq_false_iff_ne, ne_eq] at hc
    simp only [isSplitRune, Bool.or_eq_false_iff, beq_eq_false_iff_ne, ne_eq] at hw
    have hstep : parseArgsStep ⟨args, buf, false, false⟩ c = ⟨args, buf ++ [c], false, false⟩ := by
      simp [parseArgsStep, hc.1, hc.2, hw.1.1, hw.1.2, hw.2]
    rw [List.foldl_cons, hstep, ih _ (fun x hx => h x (List.mem_cons_of_mem _ hx))
      (fun x hx => hs x (List.mem_cons_of_mem _ hx))]
    simp

/-- Reading one written argument from an empty buffer leaves the argument in the buffer. -/
theorem foldl_step_quoteArg (a : String) (args : List String) (h : plainArg a) :
    (quoteArg a).foldl parseArgsStep ⟨args, [], false, false⟩ = ⟨args, a.toList, false, false⟩ := by
  unfold quoteArg
  split
  · have h1 : parseArgsStep ⟨args, [], false, false⟩ (Char.ofNat 34) = ⟨args, [], false, true⟩ := by
      simp [parseArgsStep]
    have h2 : parseArgsStep ⟨args, a.toList, false, true⟩ (Char.ofNat 34) =
        ⟨args, a.toList, false, false⟩ := by
      simp [parseArgsStep]
    rw [List.foldl_cons, h1, List.foldl_append, foldl_step_inDouble _ _ _ h.2]
    simp only [List.nil_append, List.foldl_cons, List.foldl_nil]
    exact h2
  · rename_i hq
    have hs : ∀ c ∈ a.toList, isSplitRune c = false := by
      intro c hc
      by_contra hne
      exact hq (List.any_eq_true.2 ⟨c, hc, by simpa using hne⟩)
    have := foldl_step_plain a.toList args [] h.2 hs
    simpa using this

theorem flush_plainArg (a : String) (args : List String) (h : a ≠ "") :
    flush ⟨args, a.toList, false, false⟩ = ⟨args ++ [a], [], false, false⟩ := by
  have hne : a.toList ≠ [] := fun e => h (String.ext e)
  have hlen : a.toList.length > 0 := List.length_pos.2 hne
  unfold flush
  rw [if_pos hlen]
  rfl

theorem parseArgs_joinQuoted_acc (args acc : List String) (h : ∀ a ∈ args, plainArg a) :
    (flush ((joinQuoted args).foldl parseArgsStep ⟨acc, [], false, false⟩)).args = acc ++ args := by
  induction args generalizing acc with
  | nil => simp [joinQuoted, flush]
  | cons a rest ih =>
    have ha := h a (List.mem_cons_self _ _)
    cases rest with
    | nil =>
      simp only [joinQuoted]
      rw [foldl_step_quoteArg a acc ha, flush_plainArg a acc ha.1]
    | cons b rest' =>
      have hsp : parseArgsStep ⟨acc, a.toList, false, false⟩ ' ' =
          flush ⟨acc, a.toList, false, false⟩ := by
        simp [parseArgsStep]
      simp only [joinQuoted]
      rw [List.foldl_append, foldl_step_quoteArg a acc ha, List.foldl_cons, hsp,
        flush_plainArg a acc ha.1, ih (acc ++ [a]) (fun x hx => h x (List.mem_cons_of_mem _ hx))]
      simp

/-! ### Matches that begin before a summary line -/

theorem getLast_nl_ne {u : List Char} (h : u.getLast? = some '\n') : u ≠ [] := by
  intro hu; subst hu; simp at h

theorem getLast_nl_mem {u : List Char} (h : u.getLast? = some '\n') : '\n' ∈ u :=
  List.mem_of_getLast?_eq_some h

/-- Runes without a newline, read before a line, stop before that line. -/
theorem split_before (xs r u tl : List Char) (h : xs ++ r = u ++ tl)
    (hu : u.getLast? = some '\n') (hxs : '\n' ∉ xs) :
    ∃ u', u = xs ++ u' ∧ r = u' ++ tl ∧ u'.getLast? = some '\n' := by
  rcases List.append_eq_append_iff.1 h with ⟨a, ha, hr⟩ | ⟨c, hc, htl⟩
  · -- u = xs ++ a
    refine ⟨a, ha, hr, ?_⟩
    cases a with
    | nil =>
      exfalso
      rw [List.append_nil] at ha
      exact hxs (ha ▸ getLast_nl_mem hu)
    | cons y ys =>
      rw [ha, List.getLast?_append_of_ne_nil _ (by simp)] at hu
      exact hu
  · -- xs = u ++ c
    exfalso
    exact hxs (hc ▸ List.mem_append_left _ (getLast_nl_mem hu))

/-- White space read before a line stops before the line or at its start, when
the line does not start with white space. -/
theorem split_space (xs r u tl : List Char) (h : xs ++ r = u ++ tl)
    (hu : u.getLast? = some '\n') (hxs : ∀ c ∈ xs, isSpaceRe c = true)
    (htl : ∀ c, tl.head? = some c → isSpaceRe c = false) :
    ∃ u', u = xs ++ u' ∧ r = u' ++ tl ∧ (u' = [] ∨ u'.getLast? = some '\n') := by
  rcases List.append_eq_append_iff.1 h with ⟨a, ha, hr⟩ | ⟨c, hc, htl'⟩
  · refine ⟨a, ha, hr, ?_⟩
    cases a with
    | nil => exact Or.inl rfl
    | cons y ys =>
      right
      rw [ha, List.getLast?_append_of_ne_nil _ (by simp)] at hu
      exact hu
  · cases c with
    | nil =>
      refine ⟨[], by simpa using hc.symm, by simpa using htl'.symm, Or.inl rfl⟩
    | cons y ys =>
      exfalso
      have h1 : isSpaceRe y = true := hxs y (by rw [hc]; simp)
      have h2 : isSpaceRe y = false := htl y (by rw [htl']; rfl)
      rw [h1] at h2
      exact Bool.noConfusion h2

theorem starRun_sound {R : Type} (p : Char → Bool) (prev : Option Char) (rest : List Char)
    (k : Cursor → Option R) (r : R) (h : starRun p prev rest k = some r) :
    ∃ xs s', rest = xs ++ s'.rest ∧ (∀ c ∈ xs, p c = true) ∧ k s' = some r := by
  induction rest generalizing prev with
  | nil => exact ⟨[], ⟨prev, []⟩, rfl, by simp, by simpa [starRun] using h⟩
  | cons c cs ih =>
    rw [starRun] at h
    split at h
    · rename_i hp
      cases hs : starRun p (some c) cs k with
      | some r' =>
        rw [hs] at h
        simp only [Option.some.injEq] at h
        subst h
        obtain ⟨xs, s', h1, h2, h3⟩ := ih _ hs
        refine ⟨c :: xs, s', by simp [h1], ?_, h3⟩
        intro d hd
        rcases List.mem_cons.1 hd with hd | hd
        · subst hd; exact hp
        · exact h2 d hd
      | none =>
        rw [hs] at h
        exact ⟨[], ⟨prev, c :: cs⟩, rfl, by simp, h⟩
    · exact ⟨[], ⟨prev, c :: cs⟩, rfl, by simp, h⟩

theorem plus_run_sound {R : Type} (p : Char → Bool) (s : Cursor) (caps : List (List Char))
    (k : Cursor → List (List Char) → Option R) (r : R)
    (h : (Re.plus p).run s caps k = some r) :
    ∃ xs s', xs ≠ [] ∧ s.rest = xs ++ s'.rest ∧ (∀ c ∈ xs, p c = true) ∧ k s' caps = some r := by
  obtain ⟨prev, rest⟩ := s
  cases rest with
  | nil => simp [Re.run] at h
  | cons c cs =>
    simp only [Re.run] at h
    split at h
    · rename_i hp
      obtain ⟨xs, s', h1, h2, h3⟩ := starRun_sound p (some c) cs _ r h
      refine ⟨c :: xs, s', by simp, by simp [h1], ?_, h3⟩
      intro d hd
      rcases List.mem_cons.1 hd with hd | hd
      · subst hd; exact hp
      · exact h2 d hd
    · exact absurd h (by simp)

theorem stripLit_sound (l : List Char) (prev : Option Char) (rest : List Char) (s' : Cursor)
    (h : stripLit l prev rest = some s') : rest = l ++ s'.rest := by
  induction l generalizing prev rest with
  | nil =>
    simp only [stripLit, Option.some.injEq] at h
    subst h; rfl
  | cons c cs ih =>
    cases rest with
    | nil => simp [stripLit] at h
    | cons d ds =>
      simp only [stripLit] at h
      split at h
      · rename_i hcd
        subst hcd
        rw [ih _ _ h]; rfl
      · exact absurd h (by simp)

theorem not_mem_of_class (p : Char → Bool) (hp : p '\n' = false) (xs : List Char)
    (hxs : ∀ c ∈ xs, p c = true) : '\n' ∉ xs := by
  intro hm
  have := hxs _ hm
  rw [hp] at this
  exact Bool.noConfusion this

theorem Recovers.keeps {tl : List Char} {re : Re} (h : Recovers tl re) : Keeps tl re :=
  fun R s caps k r u hr hu hs => h R s caps k r u hr (Or.inr hu) hs

theorem keeps_seq {tl : List Char} {a b : Re} (ha : Keeps tl a) (hb : Keeps tl b) :
    Keeps tl (Re.seq a b) := by
  intro R s caps k r u hr hu hs
  rw [seq_run] at hr
  obtain ⟨s1, caps1, u1, hu1, hs1, hl1, hk1⟩ := ha R s caps _ r u hr hu hs
  obtain ⟨s2, caps2, u2, hu2, hs2, hl2, hk2⟩ := hb R s1 caps1 k r u1 hk1 hu1 hs1
  exact ⟨s2, caps2, u2, hu2, hs2, le_trans hl2 hl1, hk2⟩

theorem recovers_seq {tl : List Char} {a b : Re} (ha : Recovers tl a) (hb : Keeps tl b) :
    Recovers tl (Re.seq a b) := by
  intro R s caps k r u hr hu hs
  rw [seq_run] at hr
  obtain ⟨s1, caps1, u1, hu1, hs1, hl1, hk1⟩ := ha R s caps _ r u hr hu hs
  obtain ⟨s2, caps2, u2, hu2, hs2, hl2, hk2⟩ := hb R s1 caps1 k r u1 hk1 hu1 hs1
  exact ⟨s2, caps2, u2, hu2, hs2, le_trans hl2 hl1, hk2⟩

theorem keeps_space_seq {tl : List Char} {b : Re}
    (htl : ∀ c, tl.head? = some c → isSpaceRe c = false) (hb : Recovers tl b) :
    Keeps tl (Re.seq (Re.plus isSpaceRe) b) := by
  intro R s caps k r u hr hu hs
  rw [seq_run] at hr
  obtain ⟨xs, s1, _, h1, h2, h3⟩ := plus_run_sound _ _ _ _ _ hr
  rw [hs] at h1
  obtain ⟨u1, hu1, hr1, hl1⟩ := split_space xs s1.rest u tl h1.symm hu h2 htl
  obtain ⟨s2, caps2, u2, hu2, hs2, hl2, hk2⟩ := hb R s1 caps k r u1 h3 hl1 hr1
  refine ⟨s2, caps2, u2, hu2, hs2, le_trans hl2 ?_, hk2⟩
  rw [hu1]; simp

theorem recovers_plus {tl : List Char} {p : Char → Bool} (hp : p '\n' = false)
    (htl : ∀ c, tl.head? = some c → p c = false) : Recovers tl (Re.plus p) := by
  intro R s caps k r u hr hu hs
  obtain ⟨xs, s1, hne, h1, h2, h3⟩ := plus_run_sound _ _ _ _ _ hr
  rw [hs] at h1
  rcases hu with hu | hu
  · exfalso
    subst hu
    cases xs with
    | nil => exact hne rfl
    | cons x xs =>
      have hx : p x = true := h2 x (List.mem_cons_self _ _)
      have : p x = false := htl x (by rw [List.nil_append] at h1; rw [h1]; rfl)
      rw [hx] at this
      exact Bool.noConfusion this
  · obtain ⟨u1, hu1, hr1, hl1⟩ := split_before xs s1.rest u tl h1.symm hu
      (not_mem_of_class p hp xs h2)
    refine ⟨s1, caps, u1, hl1, hr1, ?_, h3⟩
    rw [hu1]; simp

theorem keeps_star {tl : List Char} {p : Char → Bool} (hp : p '\n' = false) :
    Keeps tl (Re.star p) := by
  intro R s caps k r u hr hu hs
  simp only [Re.run] at hr
  obtain ⟨xs, s1, h1, h2, h3⟩ := starRun_sound _ _ _ _ _ hr
  rw [hs] at h1
  obtain ⟨u1, hu1, hr1, hl1⟩ := split_before xs s1.rest u tl h1.symm hu
    (not_mem_of_class p hp xs h2)
  refine ⟨s1, caps, u1, hl1, hr1, ?_, h3⟩
  rw [hu1]; simp

theorem lit_run_sound {R : Type} (l : List Char) (s : Cursor) (caps : List (List Char))
    (k : Cursor → List (List Char) → Option R) (r : R)
    (h : (Re.lit l).run s caps k = some r) :
    ∃ s', s.rest = l ++ s'.rest ∧ k s' caps = some r := by
  simp only [Re.run] at h
  cases hs : stripLit l s.prev s.rest with
  | none => rw [hs] at h; exact absurd h (by simp)
  | some s' =>
    rw [hs] at h
    exact ⟨s', stripLit_sound _ _ _ _ hs, h⟩

theorem keeps_lit {tl : List Char} {l : List Char} (hl : '\n' ∉ l) : Keeps tl (Re.lit l) := by
  intro R s caps k r u hr hu hs
  obtain ⟨s1, h1, h3⟩ := lit_run_sound _ _ _ _ _ hr
  rw [hs] at h1
  obtain ⟨u1, hu1, hr1, hl1⟩ := split_before l s1.rest u tl h1.symm hu hl
  refine ⟨s1, caps, u1, hl1, hr1, ?_, h3⟩
  rw [hu1]; simp

theorem recovers_lit {tl : List Char} {l : List Char} (hl : '\n' ∉ l) (hp : ¬ l <+: tl) :
    Recovers tl (Re.lit l) := by
  intro R s caps k r u hr hu hs
  rcases hu with hu | hu
  · exfalso
    subst hu
    obtain ⟨s1, h1, _⟩ := lit_run_sound _ _ _ _ _ hr
    rw [hs, List.nil_append] at h1
    exact hp ⟨s1.rest, h1.symm⟩
  · exact keeps_lit hl R s caps k r u hr hu hs

theorem recovers_group {tl : List Char} {a : Re} (i : Nat) (ha : Recovers tl a) :
    Recovers tl (Re.group i a) := by
  intro R s caps k r u hr hu hs
  rw [group_run] at hr
  obtain ⟨s1, caps1, u1, hu1, hs1, hl1, hk1⟩ := ha R s caps _ r u hr hu hs
  exact ⟨s1, _, u1, hu1, hs1, hl1, hk1⟩

theorem keeps_opt {tl : List Char} {a : Re} (ha : Keeps tl a) : Keeps tl (Re.opt a) := by
  intro R s caps k r u hr hu hs
  simp only [Re.run] at hr
  cases h : a.run s caps k with
  | some r' =>
    rw [h] at hr
    simp only [Option.some.injEq] at hr
    subst hr
    exact ha R s caps k _ u h hu hs
  | none =>
    rw [h] at hr
    exact ⟨s, caps, u, hu, hs, le_refl _, hr⟩

theorem keeps_eol {tl : List Char} : Keeps tl Re.eol := by
  intro R s caps k r u hr hu hs
  rw [eol_run] at hr
  split at hr
  · exact ⟨s, caps, u, hu, hs, le_refl _, hr⟩
  · exact absurd hr (by simp)

theorem keeps_figureThenUnit {tl : List Char} (i : Nat) (unit : List Char)
    (hB : ∃ t, tl = 'B' :: t) (hnl : '\n' ∉ unit) (hp : ¬ unit <+: tl) :
    Keeps tl (figureThenUnit i unit) := by
  obtain ⟨t, ht⟩ := hB
  have hsp : ∀ c, tl.head? = some c → isSpaceRe c = false := by
    intro c hc; rw [ht] at hc; simp at hc; subst hc; decide
  have hfig : ∀ c, tl.head? = some c → isFigureRe c = false := by
    intro c hc; rw [ht] at hc; simp at hc; subst hc; decide
  unfold figureThenUnit
  exact keeps_space_seq hsp
    (recovers_seq (recovers_group i (recovers_plus (by decide) hfig))
      (keeps_space_seq hsp (recovers_lit hnl hp)))

/-- A match of `benchLine` that begins before a line starting with the
benchmark name ends before that line. -/
theorem execAt_before_line (prev : Option Char) (u t : List Char) (m : Match)
    (hu : u.getLast? = some '\n')
    (h : execAt benchLine benchLineGroups ⟨prev, u ++ 'B' :: 'e' :: t⟩ = some m) :
    ∃ u', u'.getLast? = some '\n' ∧ m.stop.rest = u' ++ 'B' :: 'e' :: t ∧
      u'.length < u.length := by
  have hB : ∃ t', 'B' :: 'e' :: t = 'B' :: t' := ⟨_, rfl⟩
  have hsp : ∀ c, ('B' :: 'e' :: t).head? = some c → isSpaceRe c = false := by
    intro c hc; simp at hc; subst hc; decide
  have hdig : ∀ c, ('B' :: 'e' :: t).head? = some c → isDigitRe c = false := by
    intro c hc; simp at hc; subst hc; decide
  have hrest : Keeps ('B' :: 'e' :: t)
      (Re.seq (Re.star isNotSpaceRe)
        (Re.seq (Re.plus isSpaceRe)
          (Re.seq (Re.plus isDigitRe)
            (Re.seq (figureThenUnit 1 "ns/op".toList)
              (Re.seq (Re.opt (figureThenUnit 2 "B/op".toList))
                (Re.seq (Re.opt (figureThenUnit 3 "allocs/op".toList))
                  Re.eol)))))) := by
    refine keeps_seq (keeps_star (by decide)) (keeps_space_seq hsp
      (recovers_seq (recovers_plus (by decide) hdig)
        (keeps_seq (keeps_figureThenUnit 1 _ hB (by decide) ?_)
          (keeps_seq (keeps_opt (keeps_figureThenUnit 2 _ hB (by decide) ?_))
            (keeps_seq (keeps_opt (keeps_figureThenUnit 3 _ hB (by decide) ?_)) keeps_eol)))))
    · intro hp; obtain ⟨x, hx⟩ := hp; simp at hx
    · intro hp; obtain ⟨x, hx⟩ := hp; simp at hx
    · intro hp; obtain ⟨x, hx⟩ := hp; simp at hx
  unfold execAt benchLine at h
  rw [seq_run, bol_run] at h
  split at h
  · rw [seq_run] at h
    obtain ⟨s1, h1, h3⟩ := lit_run_sound _ _ _ _ _ h
    obtain ⟨u1, hu1, hr1, hl1⟩ := split_before benchName s1.rest u _ h1.symm hu (by decide)
    obtain ⟨s2, caps2, u2, hu2, hs2, hl2, hk2⟩ := hrest _ s1 _ _ m u1 h3 hl1 hr1
    simp only [Option.some.injEq] at hk2
    subst hk2
    refine ⟨u2, hu2, hs2, lt_of_le_of_lt hl2 ?_⟩
    have hpos : 0 < benchName.length := by decide
    rw [hu1, List.length_append]
    omega
  · exact absurd h (by simp)

theorem execAt_nil_none (prev : Option Char) :
    execAt benchLine benchLineGroups ⟨prev, []⟩ = none :=
  execAt_benchLine_none _ _ (Or.inr (by decide))

/-- What the search returns when it starts before a summary line or at its
start: that line (its match stops where the line ends), or a match that
stops before the line. -/
theorem doExecute_before_line (L : SummaryLine) (hL : L.ok) (post : List Char)
    (hpost : post.head? = none ∨ post.head? = some '\n') (u : List Char) (prev : Option Char)
    (hu : (u = [] ∧ (prev = none ∨ prev = some '\n')) ∨ u.getLast? = some '\n') :
    ∃ m, doExecute benchLine benchLineGroups prev (u ++ (L.text ++ post)) = some m ∧
      ((m.stop = ⟨some 'p', post⟩ ∧ m.groups = [L.text, L.f1, L.f2, L.f3]) ∨
       (∃ u', u'.getLast? = some '\n' ∧ m.stop.rest = u' ++ (L.text ++ post) ∧
          u'.length < u.length)) := by
  have htl : ∃ t, L.text ++ post = 'B' :: 'e' :: t := ⟨_, rfl⟩
  obtain ⟨t, ht⟩ := htl
  induction u generalizing prev with
  | nil =>
    rcases hu with ⟨_, hp⟩ | hu
    · exact ⟨_, doExecute_of_execAt _ _ _ _ _ (execAt_summaryLine L hL prev post hp hpost),
        Or.inl ⟨rfl, rfl⟩⟩
    · simp at hu
  | cons c cs ih =>
    have hu' : (c :: cs).getLast? = some '\n' := by
      rcases hu with ⟨h, _⟩ | hu
      · exact absurd h (by simp)
      · exact hu
    cases hm : execAt benchLine benchLineGroups ⟨prev, c :: cs ++ (L.text ++ post)⟩ with
    | some m =>
      refine ⟨m, doExecute_of_execAt _ _ _ _ _ hm, Or.inr ?_⟩
      rw [ht] at hm ⊢
      exact execAt_before_line prev (c :: cs) t m hu' hm
    | none =>
      have hcs : (cs = [] ∧ (some c = none ∨ some c = some '\n')) ∨ cs.getLast? = some '\n' := by
        cases cs with
        | nil =>
          left
          simp at hu'
          exact ⟨rfl, Or.inr (by rw [hu'])⟩
        | cons d ds =>
          right
          rw [List.getLast?_cons_cons] at hu'
          exact hu'
      obtain ⟨m, hm1, hm2⟩ := ih (some c) hcs
      refine ⟨m, ?_, ?_⟩
      · rw [List.cons_append, doExecute, ← List.cons_append, hm]
        exact hm1
      · rcases hm2 with h | ⟨u', h1, h2, h3⟩
        · exact Or.inl h
        · exact Or.inr ⟨u', h1, h2, by simp only [List.length_cons]; omega⟩

theorem doExecute_none_of_findAll (s : List Char)
    (h : FindAllStringSubmatch benchLine benchLineGroups s = []) :
    doExecute benchLine benchLineGroups none s = none := by
  unfold FindAllStringSubmatch at h
  rw [allMatches] at h
  cases hd : doExecute benchLine benchLineGroups none s with
  | none => rfl
  | some m =>
    exfalso
    simp only [hd] at h
    split at h
    · split at h
      · rename_i h2
        exact absurd h2 (by simp)
      · exact absurd h (by simp)
    · exact absurd h (by simp)

/-- No match begins after the line when the text after it holds no match. -/
theorem doExecute_after_line (post : List Char)
    (hpost : post.head? = none ∨ post.head? = some '\n')
    (h : FindAllStringSubmatch benchLine benchLineGroups post = []) :
    doExecute benchLine benchLineGroups (some 'p') post = none := by
  have h0 := doExecute_none_of_findAll post h
  cases post with
  | nil => simp [doExecute, execAt_nil_none]
  | cons c cs =>
    have hc : c = '\n' := by simpa using hpost
    subst hc
    have hn : ∀ prev, execAt benchLine benchLineGroups ⟨prev, '\n' :: cs⟩ = none :=
      fun prev => execAt_benchLine_none _ _ (Or.inr (benchName_not_prefix_newline cs))
    rw [doExecute, hn] at h0 ⊢
    exact h0

/-- The matches of a text that holds a summary line, with no match in the text
after the line: the last of them is that line. -/
theorem allMatches_before_line (L : SummaryLine) (hL : L.ok) (post : List Char)
    (hpost : post.head? = none ∨ post.head? = some '\n')
    (hafter : FindAllStringSubmatch benchLine benchLineGroups post = [])
    (n : Nat) (u : List Char) (pos : Cursor) (pe : Option Nat)
    (hrest : pos.rest = u ++ (L.text ++ post))
    (hu : (u = [] ∧ (pos.prev = none ∨ pos.prev = some '\n')) ∨ u.getLast? = some '\n')
    (hn : u.length < n) :
    ∃ ms, allMatches benchLine benchLineGroups n pos pe = ms ++ [[L.text, L.f1, L.f2, L.f3]] := by
  induction n generalizing u pos pe with
  | zero => exact absurd hn (by omega)
  | succ n ih =>
    obtain ⟨m, hm, hcase⟩ := doExecute_before_line L hL post hpost u pos.prev hu
    rw [allMatches, hrest, hm]
    simp only
    have hpos := L.text_length_pos
    rcases hcase with ⟨hstop, hg⟩ | ⟨u', hu1, hu2, hu3⟩
    · have hlen : m.stop.rest.length ≠ (u ++ (L.text ++ post)).length := by
        rw [hstop]; simp only [List.length_append]; omega
      rw [if_neg hlen, hg, allMatches_of_none]
      · exact ⟨[], rfl⟩
      · rw [hstop]
        exact doExecute_after_line post hpost hafter
    · have hlen : m.stop.rest.length ≠ (u ++ (L.text ++ post)).length := by
        rw [hu2]; simp only [List.length_append]; omega
      rw [if_neg hlen]
      obtain ⟨ms, hms⟩ := ih u' m.stop (some m.stop.rest.length) hu2 (Or.inr hu1) (by omega)
      exact ⟨m.groups :: ms, by rw [hms]; rfl⟩

theorem findAll_before_line (L : SummaryLine) (hL : L.ok) (pre post : List Char)
    (hpre : pre = [] ∨ pre.getLast? = some '\n')
    (hpost : post.head? = none ∨ post.head? = some '\n')
    (hafter : FindAllStringSubmatch benchLine benchLineGroups post = []) :
    ∃ ms, FindAllStringSubmatch benchLine benchLineGroups (pre ++ (L.text ++ post)) =
      ms ++ [[L.text, L.f1, L.f2, L.f3]] := by
  unfold FindAllStringSubmatch
  apply allMatches_before_line L hL post hpost hafter _ pre _ _ rfl
  · rcases hpre with h | h
    · exact Or.inl ⟨h, Or.inl rfl⟩
    · exact Or.inr h
  · simp only [List.length_append]; omega

theorem parseBench_of_last (output : String) (ms : List (List (List Char)))
    (g f1 f2 f3 : List Char)
    (h : FindAllStringSubmatch benchLine benchLineGroups output.toList = ms ++ [[g, f1, f2, f3]]) :
    parseBench output = ⟨sscanfFloat f1, sscanfFloat f2, sscanfFloat f3⟩ := by
  rw [parseBench_last_match, h]
  have hl : (ms ++ [[g, f1, f2, f3]]).getLast? = some [g, f1, f2, f3] := by simp
  rw [hl]
  simp

theorem goTestLine_ok : goTestLine.ok := by
  unfold SummaryLine.ok isBlanks isFigure goTestLine
  decide

theorem goTestLine_figures :
    sscanfFloat goTestLine.f1 = 3216 ∧ sscanfFloat goTestLine.f2 = 4096 ∧
      sscanfFloat goTestLine.f3 = 1 := by
  simp [goTestLine, sscanfFloat, floatToken, parseFloat, takeSign, isDigitRe, natOfDigits,
    float64Overflow]
  norm_num

set_option maxRecDepth 100000 in
theorem goTestText_eq :
    String.mk (goTestHead.toList ++ (goTestLine.text ++ goTestTail.toList)) = goTestText := by
  decide

theorem exampleLine_text_eq :
    String.mk ([] ++ (exampleLine.text ++ [])) =
      "BenchmarkVideoLightningDetectorFromEnvArgs 100 123.0 ns/op 45 B/op 2 allocs/op" := by
  decide

set_option maxRecDepth 100000 in
theorem goTestTail_no_match :
    FindAllStringSubmatch benchLine benchLineGroups goTestTail.toList = [] := by
  decide

set_option maxRecDepth 100000 in
theorem laterLine_matches :
    FindAllStringSubmatch benchLine benchLineGroups laterLineText.toList =
      [["BenchmarkVideoLightningDetectorFromEnvArgs 100 123.0 ns/op 45 B/op 2 allocs/op".toList,
          "123.0".toList, "45".toList, "2".toList],
       ["BenchmarkVideoLightningDetectorFromEnvArgs 1 250 ns/op".toList,
          "250".toList, [], []]] := by
  decide

/-! ### Rounding to binary64 -/

theorem roundHalfEven_of_near (m : ℚ) (n : ℤ) (h1 : (n : ℚ) - 1 / 2 < m)
    (h2 : m < (n : ℚ) + 1 / 2) : roundHalfEven m = n := by
  unfold roundHalfEven
  by_cases hle : (n : ℚ) ≤ m
  · have hf : ⌊m⌋ = n := Int.floor_eq_iff.2 ⟨hle, by linarith⟩
    simp only [hf]
    have : m - (n : ℚ) < 1 / 2 := by linarith
    rw [if_pos this]
  · have hlt : m < (n : ℚ) := lt_of_not_le hle
    have hf : ⌊m⌋ = n - 1 := Int.floor_eq_iff.2 ⟨by push_cast; linarith, by push_cast; linarith⟩
    simp only [hf]
    have h3 : ¬ (m - ((n - 1 : ℤ) : ℚ) < 1 / 2) := by push_cast; linarith
    have h4 : 1 / 2 < m - ((n - 1 : ℤ) : ℚ) := by push_cast; linarith
    rw [if_neg h3, if_pos h4]
    ring

/-- A tie goes to the even neighbour. -/
theorem roundHalfEven_tie (m : ℚ) (n : ℤ) (hm : m = (n : ℚ) + 1 / 2) :
    roundHalfEven m = if n % 2 = 0 then n else n + 1 := by
  unfold roundHalfEven
  have hf : ⌊m⌋ = n := Int.floor_eq_iff.2 ⟨by linarith, by linarith⟩
  have hr : m - (n : ℚ) = 1 / 2 := by linarith
  simp only [hf, hr, lt_irrefl, if_false]

theorem log_two_eq (x : ℚ) (e : ℤ) (hx : 0 < x) (h1 : (2 : ℚ) ^ e ≤ x)
    (h2 : x < (2 : ℚ) ^ (e + 1)) : Int.log 2 x = e := by
  have a1 : e ≤ Int.log 2 x := (Int.zpow_le_iff_le_log (by norm_num) hx).1 (by exact_mod_cast h1)
  have a2 : Int.log 2 x < e + 1 := (Int.lt_zpow_iff_log_lt (by norm_num) hx).1 (by exact_mod_cast h2)
  omega

/-- Rounding of a positive rational of a known binade to a known neighbour. -/
theorem roundPos_eq (x : ℚ) (e n : ℤ) (hx : 0 < x) (h1 : (2 : ℚ) ^ e ≤ x)
    (h2 : x < (2 : ℚ) ^ (e + 1)) (hmin : -1022 ≤ e)
    (hn1 : (n : ℚ) - 1 / 2 < x / 2 ^ (e - 52)) (hn2 : x / 2 ^ (e - 52) < (n : ℚ) + 1 / 2) :
    roundPos x =
      if (2 : ℚ) ^ (1024 : ℕ) ≤ (n : ℚ) * 2 ^ (e - 52) then none
      else some ((n : ℚ) * 2 ^ (e - 52)) := by
  unfold roundPos
  simp only [log_two_eq x e hx h1 h2, max_eq_left hmin, roundHalfEven_of_near _ n hn1 hn2]

/-- Rounding below the least normal number: the spacing is `2^-1074`. -/
theorem roundPos_subnormal (x : ℚ) (n : ℤ) (hx : 0 < x) (h2 : x < (2 : ℚ) ^ (-1022 : ℤ))
    (hn1 : (n : ℚ) - 1 / 2 < x / 2 ^ (-1074 : ℤ)) (hn2 : x / 2 ^ (-1074 : ℤ) < (n : ℚ) + 1 / 2) :
    roundPos x =
      if (2 : ℚ) ^ (1024 : ℕ) ≤ (n : ℚ) * 2 ^ (-1074 : ℤ) then none
      else some ((n : ℚ) * 2 ^ (-1074 : ℤ)) := by
  unfold roundPos
  have hlog : Int.log 2 x < -1022 :=
    (Int.lt_zpow_iff_log_lt (by norm_num) hx).1 (by exact_mod_cast h2)
  have hmax : max (Int.log 2 x) (-1022) = -1022 := max_eq_right (le_of_lt hlog)
  have he : (-1022 : ℤ) - 52 = -1074 := by norm_num
  simp only [hmax, he, roundHalfEven_of_near _ n hn1 hn2]

theorem roundF64_pos_eq (x : ℚ) (e n : ℤ) (hx : 0 < x) (h1 : (2 : ℚ) ^ e ≤ x)
    (h2 : x < (2 : ℚ) ^ (e + 1)) (hmin : -1022 ≤ e)
    (hn1 : (n : ℚ) - 1 / 2 < x / 2 ^ (e - 52)) (hn2 : x / 2 ^ (e - 52) < (n : ℚ) + 1 / 2)
    (hb : (n : ℚ) * 2 ^ (e - 52) < 2 ^ (1024 : ℕ)) :
    roundF64 x = Float64.fin ((n : ℚ) * 2 ^ (e - 52)) := by
  unfold roundF64
  rw [if_neg (ne_of_gt hx), if_pos hx, roundPos_eq x e n hx h1 h2 hmin hn1 hn2,
    if_neg (not_le.2 hb)]

/-- Rounding of a positive rational that lies half way between two
neighbours: it goes to the even one. -/
theorem roundPos_tie (x : ℚ) (e k : ℤ) (hx : 0 < x) (h1 : (2 : ℚ) ^ e ≤ x)
    (h2 : x < (2 : ℚ) ^ (e + 1)) (hmin : -1022 ≤ e) :
    (x / 2 ^ (e - 52) = ((2 * k : ℤ) : ℚ) + 1 / 2 →
      ((2 * k : ℤ) : ℚ) * 2 ^ (e - 52) < 2 ^ (1024 : ℕ) →
      roundPos x = some (((2 * k : ℤ) : ℚ) * 2 ^ (e - 52))) ∧
    (x / 2 ^ (e - 52) = ((2 * k + 1 : ℤ) : ℚ) + 1 / 2 →
      ((2 * k + 1 + 1 : ℤ) : ℚ) * 2 ^ (e - 52) < 2 ^ (1024 : ℕ) →
      roundPos x = some (((2 * k + 1 + 1 : ℤ) : ℚ) * 2 ^ (e - 52))) := by
  constructor
  · intro hn hb
    unfold roundPos
    have hev : (2 * k) % 2 = 0 := by omega
    simp only [log_two_eq x e hx h1 h2, max_eq_left hmin, roundHalfEven_tie _ _ hn, hev,
      if_true]
    rw [if_neg (not_le.2 hb)]
  · intro hn hb
    unfold roundPos
    have hodd : ¬ (2 * k + 1) % 2 = 0 := by omega
    simp only [log_two_eq x e hx h1 h2, max_eq_left hmin, roundHalfEven_tie _ _ hn, hodd,
      if_false]
    rw [if_neg (not_le.2 hb)]

/-- Examples of the rounding (nearest): `0.1` goes to the nearest binary64
number, and an integer below `2^53` is kept. -/
theorem roundF64_nearest :
    roundF64 (1 / 10) = Float64.fin (3602879701896397 / 36028797018963968) ∧
    roundF64 9007199254740991 = Float64.fin 9007199254740991 := by
  refine ⟨?_, ?_⟩
  · have := roundF64_pos_eq (1 / 10) (-4) 7205759403792794
      (by norm_num) (by norm_num) (by norm_num) (by norm_num) (by norm_num) (by norm_num)
      (by norm_num)
    rw [this]; norm_num
  · have := roundF64_pos_eq 9007199254740991 52 9007199254740991
      (by norm_num) (by norm_num) (by norm_num) (by norm_num) (by norm_num) (by norm_num)
      (by norm_num)
    rw [this]; norm_num

/-- Examples of the rounding (ties): `2^53 + 1` and `2^53 + 3` lie half way
between two binary64 numbers and go to the even one. -/
theorem roundF64_ties :
    roundF64 9007199254740993 = Float64.fin 9007199254740992 ∧
    roundF64 9007199254740995 = Float64.fin 9007199254740996 := by
  refine ⟨?_, ?_⟩
  · unfold roundF64
    have := (roundPos_tie 9007199254740993 53 2251799813685248
      (by norm_num) (by norm_num) (by norm_num) (by norm_num)).1 (by norm_num) (by norm_num)
    rw [if_neg (by norm_num), if_pos (by norm_num), this]
    norm_num
  · unfold roundF64
    have := (roundPos_tie 9007199254740995 53 2251799813685248
      (by norm_num) (by norm_num) (by norm_num) (by norm_num)).2 (by norm_num) (by norm_num)
    rw [if_neg (by norm_num), if_pos (by norm_num), this]
    norm_num

theorem roundF64_of_pos (x : ℚ) (hx : 0 < x) :
    (∀ y, roundPos x = some y → roundF64 x = Float64.fin y) ∧
    (roundPos x = none → roundF64 x = Float64.inf false) := by
  unfold roundF64
  rw [if_neg (ne_of_gt hx), if_pos hx]
  constructor
  · intro y h; rw [h]
  · intro h; rw [h]

theorem roundF64_of_neg (x : ℚ) (hx : 0 < x) :
    (∀ y, roundPos x = some y → roundF64 (-x) = Float64.fin (-y)) ∧
    (roundPos x = none → roundF64 (-x) = Float64.inf true) := by
  unfold roundF64
  rw [if_neg (by linarith), if_neg (by linarith), neg_neg]
  constructor
  · intro y h; rw [h]
  · intro h; rw [h]

theorem roundPos_overflow : roundPos ((2 : ℚ) ^ (1024 : ℕ)) = none := by
  have := roundPos_eq ((2 : ℚ) ^ (1024 : ℕ)) 1024 4503599627370496
      (by norm_num) (by norm_num) (by norm_num) (by norm_num) (by norm_num) (by norm_num)
  rw [this, if_pos (by norm_num)]

theorem roundPos_tiny : roundPos (5 / 2 ^ (1076 : ℕ)) = some (1 / 2 ^ (1074 : ℕ)) := by
  have := roundPos_subnormal (5 / 2 ^ (1076 : ℕ)) 1
      (by norm_num) (by norm_num) (by norm_num) (by norm_num)
  rw [this, if_neg (by norm_num)]
  norm_num

/-- Examples of the rounding (range): `2^1024` overflows to an infinity, and
below `2^-1022` the spacing is `2^-1074`. -/
theorem roundF64_range :
    roundF64 ((2 : ℚ) ^ (1024 : ℕ)) = Float64.inf false ∧
    roundF64 (-(2 : ℚ) ^ (1024 : ℕ)) = Float64.inf true ∧
    roundF64 (5 / 2 ^ (1076 : ℕ)) = Float64.fin (1 / 2 ^ (1074 : ℕ)) := by
  have h1 : (0 : ℚ) < (2 : ℚ) ^ (1024 : ℕ) := by positivity
  have h2 : (0 : ℚ) < 5 / 2 ^ (1076 : ℕ) := by positivity
  refine ⟨?_, ?_, ?_⟩
  · exact (roundF64_of_pos _ h1).2 roundPos_overflow
  · exact (roundF64_of_neg _ h1).2 roundPos_overflow
  · exact (roundF64_of_pos _ h2).1 _ roundPos_tiny


/-- C1 (failing input). The text has two summary lines and a third line
`3 allocs/op`. Its last matching line is the second one, with ns/op 200,
B/op 20 and no allocs/op group, yet `parseBench` returns AllocsPerOp = 3: the
match of `benchLine` runs over the newline (`\s+` accepts it) and mixes the
second and the third line. -/
theorem parseBench_mixes_lines :
    lastMatchingLine mixedLinesText =
      some ["BenchmarkVideoLightningDetectorFromEnvArgs-8 1 200 ns/op 20 B/op".toList,
        "200".toList, "20".toList, []] ∧
    statsOfGroups ["BenchmarkVideoLightningDetectorFromEnvArgs-8 1 200 ns/op 20 B/op".toList,
        "200".toList, "20".toList, []] = ⟨200, 20, 0⟩ ∧
    parseBench mixedLinesText = ⟨200, 20, 3⟩ := by
  refine ⟨by decide, ?_, ?_⟩
  · simp [statsOfGroups, sscanfFloat, floatToken, parseFloat, takeSign, isDigitRe, natOfDigits,
      float64Overflow]
    norm_num
  · simp only [parseBench, mixedLines_matches]
    simp [sscanfFloat, floatToken, parseFloat, takeSign, isDigitRe, natOfDigits, float64Overflow]
    norm_num

/-- C2 (counterexample). First text: the single line
`BenchmarkX 100 123.0 ns/op 45 B/op 2 allocs/op`. It has the shape
`<name> <iterationCount> <float> ns/op <float> B/op <float> allocs/op`, but
`benchLine` asks for the name `BenchmarkVideoLightningDetectorFromEnvArgs`, so
nothing matches and `parseBench` returns all-zero stats, not 123.0, 45 and 2.
Second text: the line
`BenchmarkVideoLightningDetectorFromEnvArgs 100 123.0 ns/op 45 B/op 2 allocs/op`
followed by the line `BenchmarkVideoLightningDetectorFromEnvArgs 1 250 ns/op`.
Only the first line carries the three figures, but the second one matches
`benchLine` too (the B/op and allocs/op groups are optional, and stay unset)
and the last match wins: `parseBench` returns 250, 0 and 0. -/
theorem parseBench_shape_line_missed :
    (FindAllStringSubmatch benchLine benchLineGroups
        "BenchmarkX 100 123.0 ns/op 45 B/op 2 allocs/op".toList = [] ∧
      parseBench "BenchmarkX 100 123.0 ns/op 45 B/op 2 allocs/op" = ⟨0, 0, 0⟩ ∧
      parseBench "BenchmarkX 100 123.0 ns/op 45 B/op 2 allocs/op" ≠ ⟨123, 45, 2⟩) ∧
    (splitLines laterLineText.toList =
        ["BenchmarkVideoLightningDetectorFromEnvArgs 100 123.0 ns/op 45 B/op 2 allocs/op".toList,
         "BenchmarkVideoLightningDetectorFromEnvArgs 1 250 ns/op".toList] ∧
      matchLine "BenchmarkVideoLightningDetectorFromEnvArgs 1 250 ns/op".toList =
        some ["BenchmarkVideoLightningDetectorFromEnvArgs 1 250 ns/op".toList,
          "250".toList, [], []] ∧
      parseBench laterLineText = ⟨250, 0, 0⟩ ∧
      parseBench laterLineText ≠ ⟨123, 45, 2⟩) := by
  have h : FindAllStringSubmatch benchLine benchLineGroups
      "BenchmarkX 100 123.0 ns/op 45 B/op 2 allocs/op".toList = [] := by decide
  have hp : parseBench "BenchmarkX 100 123.0 ns/op 45 B/op 2 allocs/op" = ⟨0, 0, 0⟩ := by
    simp only [parseBench, h]
    rfl
  have hq : parseBench laterLineText = ⟨250, 0, 0⟩ := by
    simp only [parseBench, laterLine_matches]
    simp [sscanfFloat, floatToken, parseFloat, takeSign, isDigitRe, natOfDigits, float64Overflow]
    norm_num
  refine ⟨⟨h, hp, ?_⟩, by decide, by decide, hq, ?_⟩
  · rw [hp]
    intro he
    have := congrArg benchStats.NsPerOp he
    norm_num at this
  · rw [hq]
    intro he
    have := congrArg benchStats.NsPerOp he
    norm_num at this

/-- C2 (amended). For every text that has a line of the shape
`BenchmarkVideoLightningDetectorFromEnvArgs<suffix> <count> <figure> ns/op <figure> B/op <figure> allocs/op`
(the suffix free of white space, the separators blanks, a figure a non-empty
run of `[0-9.e+]`) and in which `benchLine` matches nothing after that line,
`parseBench` returns exactly the three figures of that line, as `Sscanf` reads
them, whatever text precedes the line. -/
theorem parseBench_summaryLine (pre post : List Char) (L : SummaryLine) (hL : L.ok)
    (hpre : pre = [] ∨ pre.getLast? = some '\n')
    (hpost : post.head? = none ∨ post.head? = some '\n')
    (hafter : FindAllStringSubmatch benchLine benchLineGroups post = []) :
    parseBench (String.mk (pre ++ (L.text ++ post))) =
      ⟨sscanfFloat L.f1, sscanfFloat L.f2, sscanfFloat L.f3⟩ := by
  obtain ⟨ms, hms⟩ := findAll_before_line L hL pre post hpre hpost hafter
  exact parseBench_of_last _ ms _ _ _ _ hms

theorem parseBench_summaryLine_witness :
    goTestLine.ok ∧
    (goTestHead.toList = [] ∨ goTestHead.toList.getLast? = some '\n') ∧
    (goTestTail.toList.head? = none ∨ goTestTail.toList.head? = some '\n') ∧
    FindAllStringSubmatch benchLine benchLineGroups goTestTail.toList = [] ∧
    parseBench goTestText = ⟨3216, 4096, 1⟩ ∧
    parseBench "BenchmarkVideoLightningDetectorFromEnvArgs 100 123.0 ns/op 45 B/op 2 allocs/op" =
      ⟨123, 45, 2⟩ := by
  have hpre : goTestHead.toList = [] ∨ goTestHead.toList.getLast? = some '\n' :=
    Or.inr (by decide)
  have hpost : goTestTail.toList.head? = none ∨ goTestTail.toList.head? = some '\n' :=
    Or.inr (by decide)
  have h1 := parseBench_summaryLine goTestHead.toList goTestTail.toList goTestLine goTestLine_ok
    hpre hpost goTestTail_no_match
  rw [goTestText_eq, goTestLine_figures.1, goTestLine_figures.2.1, goTestLine_figures.2.2] at h1
  have h2 := parseBench_summaryLine [] [] exampleLine exampleLine_ok (Or.inl rfl) (Or.inl rfl)
    (by decide)
  rw [exampleLine_text_eq, exampleLine_figures.1, exampleLine_figures.2.1,
    exampleLine_figures.2.2] at h2
  exact ⟨goTestLine_ok, hpre, hpost, goTestTail_no_match, h1, h2⟩

/-- C4. For every threshold, the comparator reports a metric as
not-applicable (a line without percent and flag) exactly when both values are
zero, and with a percent and a flag exactly when they are not both zero. A
pipeline stage that is missing from both timing reports is reported
not-applicable, never with a numeric percent. -/
theorem cmp_na_iff :
    (∀ (t : ℚ) (name : String) (lhs rhs : ℚ),
      (cmp t name lhs rhs = cmpLine.na name ↔ (lhs = 0 ∧ rhs = 0)) ∧
      ((∃ pct flag, cmp t name lhs rhs = cmpLine.change name lhs rhs pct flag) ↔
        ¬ (lhs = 0 ∧ rhs = 0))) ∧
    (∀ (lhsID rhsID : String) (lhs rhs : runResult) (t : ℚ),
      (stageMissing lhs.Timings "video_analysis" → stageMissing rhs.Timings "video_analysis" →
        (printComparison lhsID lhs rhsID rhs t)[2]? = some (cmpLine.na "analysis_ms")) ∧
      (stageMissing lhs.Timings "video_detection" → stageMissing rhs.Timings "video_detection" →
        (printComparison lhsID lhs rhsID rhs t)[3]? = some (cmpLine.na "detection_ms"))) := by
  constructor
  · intro t name lhs rhs
    by_cases h : lhs = 0 ∧ rhs = 0
    · simp [cmp, cmpAt, h]
    · simp [cmp, cmpAt, h]
  · intro lhsID rhsID lhs rhs t
    constructor
    · intro hl hr
      simp [printComparison, stageValue_missing _ _ hl, stageValue_missing _ _ hr, cmp, cmpAt]
    · intro hl hr
      simp [printComparison, stageValue_missing _ _ hl, stageValue_missing _ _ hr, cmp, cmpAt]

theorem cmp_na_iff_witness :
    stageMissing zeroRun.Timings "video_analysis" ∧
    (printComparison "a" zeroRun "b" zeroRun 5)[2]? = some (cmpLine.na "analysis_ms") :=
  ⟨trivial, (cmp_na_iff.2 "a" "b" zeroRun zeroRun 5).1 trivial trivial⟩

/-- C5. For every suite, run identifier and run result whose stage map has
distinct keys, writing the result with `mustWriteRun` and then reading the same
(suite, run id) with `mustReadRun` succeeds and yields a run result equal to
the written one in every field: metadata, total, bench stats, detections and
notes are equal, and the stage map has the same entries (a nil map stays nil,
an empty map stays empty). This covers zero numbers, empty strings, an empty
external-tool version and empty notes (both left out of the file by
`omitempty`). -/
theorem run_store_round_trip (suite runID : String) (res : runResult) (fs : FileSystem)
    (hwf : distinctKeys res.Timings.Stages) :
    ∃ r, mustReadRun suite runID (mustWriteRun suite runID res fs) = Except.ok r ∧
      r.Metadata = res.Metadata ∧ r.Timings.TotalMs = res.Timings.TotalMs ∧
      sameStages r.Timings.Stages res.Timings.Stages ∧ r.Bench = res.Bench ∧
      r.Detections = res.Detections ∧ r.Notes = res.Notes := by
  obtain ⟨r, hr, h⟩ := decode_encodeRunResult res hwf
  refine ⟨r, ?_, h⟩
  have hx : runID ++ ".json" ≠ "" := append_ne_empty_right _ _ (by decide)
  simp only [mustReadRun, mustWriteRun, filepathJoin_nested suite _ hx, writeFile_same, hr]

theorem run_store_round_trip_witness :
    distinctKeys sampleRun.Timings.Stages ∧
    ∃ r, mustReadRun "full" "r1" (mustWriteRun "full" "r1" sampleRun (fun _ => none)) =
        Except.ok r ∧
      r.Metadata = sampleRun.Metadata ∧ r.Timings.TotalMs = sampleRun.Timings.TotalMs ∧
      sameStages r.Timings.Stages sampleRun.Timings.Stages ∧ r.Bench = sampleRun.Bench ∧
      r.Detections = sampleRun.Detections ∧ r.Notes = sampleRun.Notes :=
  ⟨sampleRun_distinctKeys,
   run_store_round_trip "full" "r1" sampleRun (fun _ => none) sampleRun_distinctKeys⟩

/-- C6. For every suite `s` and run identifiers `a` and `b` with `b` not
empty, writing the baseline pointer `a`, then `b`, then loading it returns
`(b, true)`, whatever the files held before and whether or not a run `b` is
stored. Loading returns not-present (the pair `("", false)`, never an error)
when the pointer file is absent, when its bytes are not well-formed JSON, when
the JSON value cannot be decoded into the pointer, and when the decoded pointer
holds the empty run identifier (as after writing the pointer `""`). -/
theorem baseline_last_write_wins (fs : FileSystem) (s a b : String) (hb : b ≠ "") :
    loadBaselineID s (mustWriteBaselineID s b (mustWriteBaselineID s a fs)) = (b, true) ∧
    (∀ fs' : FileSystem, fs' (filepathJoin ["perf-results", s, "baseline.json"]) = none →
      loadBaselineID s fs' = ("", false)) ∧
    (∀ fs' : FileSystem, fs' (filepathJoin ["perf-results", s, "baseline.json"]) = some none →
      loadBaselineID s fs' = ("", false)) ∧
    (∀ (fs' : FileSystem) (j : Json) (e : String),
      fs' (filepathJoin ["perf-results", s, "baseline.json"]) = some (some j) →
      decodeStruct baselineFields j "" = Except.error e → loadBaselineID s fs' = ("", false)) ∧
    (∀ (fs' : FileSystem) (j : Json),
      fs' (filepathJoin ["perf-results", s, "baseline.json"]) = some (some j) →
      decodeStruct baselineFields j "" = Except.ok "" → loadBaselineID s fs' = ("", false)) ∧
    (∀ fs' : FileSystem, loadBaselineID s (mustWriteBaselineID s "" fs') = ("", false)) := by
  have hx : ("baseline.json" : String) ≠ "" := by decide
  refine ⟨?_, ?_, ?_, ?_, ?_, ?_⟩
  · simp [loadBaselineID, mustWriteBaselineID, filepathJoin_nested s _ hx, writeFile_same,
      decodeStruct_obj, decodeMembers, baselineFields, findField, decodeString, hb]
  · intro fs' h
    simp [loadBaselineID, h]
  · intro fs' h
    simp [loadBaselineID, h]
  · intro fs' j e h hd
    simp [loadBaselineID, h, hd]
  · intro fs' j h hd
    simp [loadBaselineID, h, hd]
  · intro fs'
    simp [loadBaselineID, mustWriteBaselineID, filepathJoin_nested s _ hx, writeFile_same,
      decodeStruct_obj, decodeMembers, baselineFields, findField, decodeString]

theorem baseline_last_write_wins_witness :
    ("b" : String) ≠ "" ∧
    loadBaselineID "full"
      (mustWriteBaselineID "full" "b" (mustWriteBaselineID "full" "a" (fun _ => none))) =
        ("b", true) :=
  ⟨by decide, (baseline_last_write_wins (fun _ => none) "full" "a" "b" (by decide)).1⟩

/-- C7. For every suite invocation-argument string, the argument list handed
to the detector is the parsed arguments followed by some of
`--export-timings`, `-v`, `-f` in this order (so at most three are added). It
always contains `--export-timings`, `-v` or `--verbose`, and `-f` or
`--skip-frames-export`; each of the three flags is appended exactly when it is
absent from the parsed arguments in both of its forms; augmenting an augmented
list adds nothing. -/
theorem detector_args_augmented (cliArgs : String) :
    ∃ extra, augmentArgs (parseArgs cliArgs) = parseArgs cliArgs ++ extra ∧
      extra.Sublist ["--export-timings", "-v", "-f"] ∧
      ("--export-timings" ∈ extra ↔ "--export-timings" ∉ parseArgs cliArgs) ∧
      ("-v" ∈ extra ↔ "-v" ∉ parseArgs cliArgs ∧ "--verbose" ∉ parseArgs cliArgs) ∧
      ("-f" ∈ extra ↔ "-f" ∉ parseArgs cliArgs ∧ "--skip-frames-export" ∉ parseArgs cliArgs) ∧
      "--export-timings" ∈ augmentArgs (parseArgs cliArgs) ∧
      ("-v" ∈ augmentArgs (parseArgs cliArgs) ∨ "--verbose" ∈ augmentArgs (parseArgs cliArgs)) ∧
      ("-f" ∈ augmentArgs (parseArgs cliArgs) ∨
        "--skip-frames-export" ∈ augmentArgs (parseArgs cliArgs)) ∧
      (augmentArgs (parseArgs cliArgs)).length ≤ (parseArgs cliArgs).length + 3 ∧
      augmentArgs (augmentArgs (parseArgs cliArgs)) = augmentArgs (parseArgs cliArgs) := by
  obtain ⟨extra, he, hsub, h1, h2, h3⟩ := augmentArgs_list (parseArgs cliArgs)
  refine ⟨extra, he, hsub, h1, h2, h3, ?_, ?_, ?_, ?_, augmentArgs_idem _⟩
  · rw [he, List.mem_append]
    by_cases h : "--export-timings" ∈ parseArgs cliArgs
    · exact Or.inl h
    · exact Or.inr (h1.2 h)
  · rw [he]
    simp only [List.mem_append]
    by_cases h : "-v" ∈ parseArgs cliArgs
    · exact Or.inl (Or.inl h)
    · by_cases h' : "--verbose" ∈ parseArgs cliArgs
      · exact Or.inr (Or.inl h')
      · exact Or.inl (Or.inr (h2.2 ⟨h, h'⟩))
  · rw [he]
    simp only [List.mem_append]
    by_cases h : "-f" ∈ parseArgs cliArgs
    · exact Or.inl (Or.inl h)
    · by_cases h' : "--skip-frames-export" ∈ parseArgs cliArgs
      · exact Or.inr (Or.inl h')
      · exact Or.inl (Or.inr (h3.2 ⟨h, h'⟩))
  · rw [he, List.length_append]
    have := hsub.length_le
    simp at this
    omega

/-- C8. For every suite invocation-argument string, the determination of the
output directory fails fatally if and only if the augmented argument list has
no occurrence of `-o` or `--output-directory-path` followed by another
argument; otherwise the directory is the argument right after the first such
occurrence, for the short and the long form alike. -/
theorem output_dir_determination (cliArgs : String) :
    ((∃ e, determineOutputDir (augmentArgs (parseArgs cliArgs)) = Except.error e) ↔
      ¬ ∃ pre x y post, augmentArgs (parseArgs cliArgs) = pre ++ x :: y :: post ∧ isOutFlag x) ∧
    (∀ pre x y post, augmentArgs (parseArgs cliArgs) = pre ++ x :: y :: post → isOutFlag x →
      (∀ z ∈ pre, ¬ isOutFlag z) →
      determineOutputDir (augmentArgs (parseArgs cliArgs)) = Except.ok y) := by
  have hne := augmentArgs_ne_empty _ (parseArgs_ne_empty cliArgs)
  have hfirst : ∀ pre x y post, augmentArgs (parseArgs cliArgs) = pre ++ x :: y :: post →
      isOutFlag x → (∀ z ∈ pre, ¬ isOutFlag z) →
      determineOutputDir (augmentArgs (parseArgs cliArgs)) = Except.ok y := by
    intro pre x y post ha hx hpre
    have hy : y ≠ "" := hne y (by rw [ha]; simp)
    have hf := findOutputDir_first pre post x y hx hpre
    rw [← ha] at hf
    simp [determineOutputDir, hf, hy]
  refine ⟨?_, hfirst⟩
  constructor
  · rintro ⟨e, he⟩ hex
    obtain ⟨pre, x, y, post, ha, hx, hpre⟩ := first_outFlag _ hex
    rw [hfirst pre x y post ha hx hpre] at he
    cases he
  · intro hno
    by_cases hf : findOutputDir (augmentArgs (parseArgs cliArgs)) = ""
    · exact ⟨"could not determine output directory from CLI args",
        by simp [determineOutputDir, hf]⟩
    · exact absurd (findOutputDir_ne_empty _ hf) hno

theorem output_dir_determination_witness :
    augmentArgs (parseArgs "-i sample.mp4 -o out -a -s 0.4") =
      ["-i", "sample.mp4"] ++ "-o" :: "out" :: ["-a", "-s", "0.4", "--export-timings", "-v", "-f"] ∧
    isOutFlag "-o" ∧ (∀ z ∈ ["-i", "sample.mp4"], ¬ isOutFlag z) ∧
    determineOutputDir (augmentArgs (parseArgs "-i sample.mp4 -o out -a -s 0.4")) =
      Except.ok "out" := by
  have h1 : augmentArgs (parseArgs "-i sample.mp4 -o out -a -s 0.4") =
      ["-i", "sample.mp4"] ++ "-o" :: "out" ::
        ["-a", "-s", "0.4", "--export-timings", "-v", "-f"] := by decide
  have h2 : isOutFlag "-o" := Or.inl rfl
  have h3 : ∀ z ∈ ["-i", "sample.mp4"], ¬ isOutFlag z := by
    unfold isOutFlag; decide
  exact ⟨h1, h2, h3,
    (output_dir_determination "-i sample.mp4 -o out -a -s 0.4").2 _ _ _ _ h1 h2 h3⟩

/-- C9 (counterexample). In a world where the benchmark run and the detector
exit successfully and a valid timing artifact with the positive total 12.5 can
be read under every path, executing the suite with the arguments
`-i sample.mp4 -a -s 0.4` ends in the fatal failure
`could not determine output directory from CLI args`: the arguments name no
output directory. -/
theorem full_suite_fatal_example :
    (happyEnv.goTestBench "-i sample.mp4 -a -s 0.4").1 = true ∧
    (∀ args, (happyEnv.detector args).pipeOk = true ∧ (happyEnv.detector args).startOk = true ∧
      (happyEnv.detector args).waitOk = true ∧
      ∀ p, (happyEnv.detector args).files p = some (some sampleTimings)) ∧
    decodeStruct timingsFields sampleTimings {} =
      Except.ok { TotalMs := 25 / 2, Stages := some [("video_analysis", 7)] } ∧
    mustExecuteSuite happyEnv "full" "20240101-000000_run" "run" "-i sample.mp4 -a -s 0.4"
      defaultOpts = Except.error "could not determine output directory from CLI args" := by
  refine ⟨rfl, fun _ => ⟨rfl, rfl, rfl, fun _ => rfl⟩, decode_sampleTimings, ?_⟩
  have h := runOnce_full_fatal happyEnv defaultOpts rfl rfl rfl
  simp only [mustExecuteSuite, runBench, h]
  rfl

/-- C9 (amended). Executing the suite with the arguments
`-i sample.mp4 -a -s 0.4`, when both subprocesses exit successfully, ends in
the fatal failure `could not determine output directory from CLI args`.
Executing a suite whose augmented arguments name an output directory (such as
`-i sample.mp4 -o out -a -s 0.4`), when both subprocesses exit successfully and
the detector has written a valid timing artifact with a positive total into
that directory, produces a run result with `Detections >= 0` and
`Timings.TotalMs > 0`. -/
theorem execute_suite_outcome :
    (∀ (env : Env) (suite runID label : String) (opts : runOpts),
      (env.goTestBench "-i sample.mp4 -a -s 0.4").1 = true →
      (env.detector (augmentArgs (parseArgs "-i sample.mp4 -a -s 0.4"))).pipeOk = true →
      (env.detector (augmentArgs (parseArgs "-i sample.mp4 -a -s 0.4"))).startOk = true →
      (env.detector (augmentArgs (parseArgs "-i sample.mp4 -a -s 0.4"))).waitOk = true →
      mustExecuteSuite env suite runID label "-i sample.mp4 -a -s 0.4" opts =
        Except.error "could not determine output directory from CLI args") ∧
    (∀ (env : Env) (suite runID label cliArgs : String) (opts : runOpts)
      (outDir : String) (j : Json) (tr : timingsReport),
      (env.goTestBench cliArgs).1 = true →
      (env.detector (augmentArgs (parseArgs cliArgs))).pipeOk = true →
      (env.detector (augmentArgs (parseArgs cliArgs))).startOk = true →
      (env.detector (augmentArgs (parseArgs cliArgs))).waitOk = true →
      findOutputDir (augmentArgs (parseArgs cliArgs)) = outDir → outDir ≠ "" →
      (env.detector (augmentArgs (parseArgs cliArgs))).files
        (filepathJoin [outDir, "timings.json"]) = some (some j) →
      decodeStruct timingsFields j {} = Except.ok tr → 0 < tr.TotalMs →
      ∃ r, mustExecuteSuite env suite runID label cliArgs opts = Except.ok r ∧
        0 ≤ r.Detections ∧ 0 < r.Timings.TotalMs) := by
  constructor
  · intro env suite runID label opts hb hpipe hstart hwait
    have h := runOnce_full_fatal env opts hpipe hstart hwait
    cases hg : env.goTestBench "-i sample.mp4 -a -s 0.4" with
    | mk ok out =>
      rw [hg] at hb
      simp only at hb
      subst hb
      simp only [mustExecuteSuite, runBench, hg, h]
      rfl
  · intro env suite runID label cliArgs opts outDir j tr hb hpipe hstart hwait hdir hne hfile
      hdec hpos
    have h := runOnce_ok env cliArgs opts outDir j tr hpipe hstart hwait hdir hne hfile hdec
    cases hg : env.goTestBench cliArgs with
    | mk ok out =>
      rw [hg] at hb
      simp only at hb
      subst hb
      have hr : mustExecuteSuite env suite runID label cliArgs opts =
          Except.ok
            { Metadata :=
                { RunID := runID, Suite := suite, Label := label,
                  CommitSHA := TrimSpace (env.runCmdOutSilent "git" ["rev-parse", "--short", "HEAD"]),
                  Branch :=
                    TrimSpace (env.runCmdOutSilent "git" ["rev-parse", "--abbrev-ref", "HEAD"]),
                  GoVersion := TrimSpace (env.runCmdOutSilent "go" ["version"]),
                  Ffmpeg := TrimSpace (firstLine (env.runCmdOutSilent "ffmpeg" ["-version"])),
                  OS := env.GOOS, Arch := env.GOARCH, CLIArgs := cliArgs,
                  TimestampISO := env.now },
              Timings := tr, Bench := parseBench out,
              Detections :=
                countDetections (env.detector (augmentArgs (parseArgs cliArgs))).stdout } := by
        simp only [mustExecuteSuite, runBench, hg, h]
        rfl
      exact ⟨_, hr, countDetections_nonneg _, hpos⟩

theorem execute_suite_outcome_witness :
    findOutputDir (augmentArgs (parseArgs "-i sample.mp4 -o out -a -s 0.4")) = "out" ∧
    ∃ r, mustExecuteSuite happyEnv "full" "20240101-000000_run" "run"
        "-i sample.mp4 -o out -a -s 0.4" defaultOpts = Except.ok r ∧
      0 ≤ r.Detections ∧ 0 < r.Timings.TotalMs :=
  ⟨by decide,
   execute_suite_outcome.2 happyEnv "full" "20240101-000000_run" "run"
     "-i sample.mp4 -o out -a -s 0.4" defaultOpts "out" sampleTimings
     { TotalMs := 25 / 2, Stages := some [("video_analysis", 7)] }
     rfl rfl rfl rfl (by decide) (by decide) rfl decode_sampleTimings (by norm_num)⟩

/-- C10 (failing input). The last matching line of the text,
`BenchmarkVideoLightningDetectorFromEnvArgs-8 1 250 ns/op`, carries the ns/op
figure and neither a B/op nor an allocs/op group, yet `parseBench` returns
BytesPerOp = 64 and AllocsPerOp = 3, read from the line after it. -/
theorem parseBench_bare_line :
    lastMatchingLine bareLineText =
      some ["BenchmarkVideoLightningDetectorFromEnvArgs-8 1 250 ns/op".toList,
        "250".toList, [], []] ∧
    parseBench bareLineText = ⟨250, 64, 3⟩ ∧
    (parseBench bareLineText).BytesPerOp ≠ 0 ∧ (parseBench bareLineText).AllocsPerOp ≠ 0 := by
  have hp : parseBench bareLineText = ⟨250, 64, 3⟩ := by
    simp only [parseBench, bareLine_matches]
    simp [sscanfFloat, floatToken, parseFloat, takeSign, isDigitRe, natOfDigits, float64Overflow]
    norm_num
  refine ⟨by decide, hp, ?_, ?_⟩ <;> rw [hp] <;> norm_num

/-- C11 (failing input). The stream is a line of 100000 letters `a`, a
newline, and the sentinel as a last line without newline. One line of the
stream contains the sentinel, yet `countDetections` returns 0: the first line
does not fit the buffer of the `bufio.Scanner` (64 KiB), `Scan` gives up with
`ErrTooLong`, and the loop ends before the second line is read. -/
theorem countDetections_long_line :
    utf8Len (List.replicate 100000 'a') ≥ MaxScanTokenSize ∧
    splitLines longLineStream.toList = [List.replicate 100000 'a', sentinel.toList] ∧
    sentinelLineCount longLineStream = 1 ∧
    countDetections longLineStream = 0 := by
  have hnl : '\n' ∉ List.replicate 100000 'a' := by
    intro h
    have := (List.mem_replicate.1 h).2
    revert this
    decide
  have hlen : utf8Len (List.replicate 100000 'a') ≥ MaxScanTokenSize := by
    rw [utf8Len_replicate_a]
    decide
  have hsplit : splitLines longLineStream.toList =
      [List.replicate 100000 'a', sentinel.toList] := by
    show splitLines (List.replicate 100000 'a' ++ '\n' :: sentinel.toList) = _
    rw [splitLines_append_newline _ _ hnl, splitLines_single _ (by decide)]
  have h1 : hasSentinel (List.replicate 100000 'a') = false := by
    unfold hasSentinel
    rw [decide_eq_false_iff_not]
    intro h
    have hF : 'F' ∈ sentinel.toList := by decide
    have := (List.mem_replicate.1 (h.subset hF)).2
    revert this
    decide
  have h2 : hasSentinel sentinel.toList = true := by
    unfold hasSentinel
    exact decide_eq_true (List.infix_refl _)
  refine ⟨hlen, hsplit, ?_, ?_⟩
  · unfold sentinelLineCount
    rw [hsplit, List.filter_cons_of_neg (by rw [h1]; exact Bool.false_ne_true),
      List.filter_cons_of_pos h2]
    rfl
  · exact countDetections_long_first_line _ _ hnl hlen

/-- C12. `parseArgs` respects quotes as a round trip: for every list of
non-empty arguments none of which contains a single or double quote, wrapping
in double quotes each argument that contains a space, tab or newline, joining
the arguments with single spaces and applying `parseArgs` returns the original
list. -/
theorem parseArgs_round_trip (args : List String) (h : ∀ a ∈ args, plainArg a) :
    parseArgs (String.mk (joinQuoted args)) = args := by
  have := parseArgs_joinQuoted_acc args [] h
  simpa [parseArgs] using this

theorem parseArgs_round_trip_witness :
    (∀ a ∈ ["-i", "my clip.mp4", "-o", "out\tdir", "x"], plainArg a) ∧
    parseArgs "-i \"my clip.mp4\" -o \"out\tdir\" x" = ["-i", "my clip.mp4", "-o", "out\tdir", "x"] := by
  have h : ∀ a ∈ ["-i", "my clip.mp4", "-o", "out\tdir", "x"], plainArg a := by
    unfold plainArg; decide
  have hs : String.mk (joinQuoted ["-i", "my clip.mp4", "-o", "out\tdir", "x"]) =
      "-i \"my clip.mp4\" -o \"out\tdir\" x" := by decide
  have := parseArgs_round_trip ["-i", "my clip.mp4", "-o", "out\tdir", "x"] h
  rw [hs] at this
  exact ⟨h, this⟩

end VldPerf
